import Mathlib

/-!
# Extendible hash table: a shallow embedding of `extendible_hash_table.go`

The Go program keeps a directory (`arr_`) of *pointers* to buckets; several
directory slots may hold the same pointer.  The embedding makes the sharing
explicit: a table carries a store `heap` of buckets and the directory is a
list of addresses into that store.  `newBucket` in `handleFull` allocates the
next free address, `heap.length`.

Go's `int` values (hash results, directory indices, capacities, counters) are
modelled by `Int`; the bitwise `&` is `Int.land` (two's complement on
negative numbers) and `1 << d` is `1 <<< d`.  Depths start at `0` and are only
ever incremented, so they are `Nat`.  A slice access `a[i]` outside
`0 ≤ i < len a` panics in Go; here every such access is checked and the
operation returns `none`.  Integers are unbounded: a 64-bit overflow of
`1 << depth_` would need a directory of `2^63` slots, which no execution can
allocate.
-/

namespace ExtendibleHash

/-! ## Buckets -/

/-- The Go type `pair[K, V]`, fields `first_` and `second_`. -/
abbrev pair (K V : Type) := K × V

/-- The Go type `bucket[K, V]`. -/
structure bucket (K V : Type) where
  max_size_ : Int
  depth_ : Nat
  arr_ : List (pair K V)

variable {K V : Type} [DecidableEq K]

/-- The Go function `newBucket(max_size, depth)`: an empty bucket. -/
def newBucket (max_size : Int) (depth : Nat) : bucket K V :=
  { max_size_ := max_size, depth_ := depth, arr_ := [] }

/-- The Go method `isFull`: `len(arr_) >= max_size_`. -/
def bucket.isFull (b : bucket K V) : Bool := decide (b.max_size_ ≤ (b.arr_.length : Int))

def bucket.getMaxSize (b : bucket K V) : Int := b.max_size_

def bucket.getSize (b : bucket K V) : Int := (b.arr_.length : Int)

def bucket.getDepth (b : bucket K V) : Nat := b.depth_

def bucket.incrementDepth (b : bucket K V) : bucket K V := { b with depth_ := b.depth_ + 1 }

def bucket.getData (b : bucket K V) : List (pair K V) := b.arr_

/-- The scan of `bucket.find`: the value of the first pair whose key is `key`. -/
def findArr (key : K) : List (pair K V) → Option V
  | [] => none
  | p :: ps => if p.1 = key then some p.2 else findArr key ps

/-- The Go method `bucket.find`: `some v` when the Go function returns true and stores `v`
through its out-parameter, `none` when it returns false. -/
def bucket.find (b : bucket K V) (key : K) : Option V := findArr key b.arr_

/-- The loop of `bucket.remove`: at the first index `i` whose key matches, the
tail is shifted one place to the left and the slice is cut to `n-1`, that is,
element `i` is dropped.  `none` when no key matches. -/
def removeArr (key : K) : List (pair K V) → Option (List (pair K V))
  | [] => none
  | p :: ps => if p.1 = key then some ps else (removeArr key ps).map (fun r => p :: r)

/-- The Go method `bucket.remove`: the bucket afterwards and the returned flag. -/
def bucket.remove (b : bucket K V) (key : K) : bucket K V × Bool :=
  match removeArr key b.arr_ with
  | some a => ({ b with arr_ := a }, true)
  | none => (b, false)

/-- The first loop of `bucket.insert`: overwrite the value of the first pair
whose key matches.  `none` when no key matches. -/
def updateArr (key : K) (val : V) : List (pair K V) → Option (List (pair K V))
  | [] => none
  | p :: ps => if p.1 = key then some ((p.1, val) :: ps) else (updateArr key val ps).map (fun r => p :: r)

/-- The Go method `bucket.insert`: update in place and return false, or else append and
return true.  There is no capacity test in the body. -/
def bucket.insert (b : bucket K V) (key : K) (val : V) : bucket K V × Bool :=
  match updateArr key val b.arr_ with
  | some a => ({ b with arr_ := a }, false)
  | none => ({ b with arr_ := b.arr_ ++ [(key, val)] }, true)

/-! ## The table -/

/-- The Go type `ExtendibleHashTable[K, V]` (the mutex is not modelled),
together with the store `heap` that the bucket pointers of `arr_` address. -/
structure ExtendibleHashTable (K V : Type) where
  hash : K → Int
  depth_ : Nat
  bucket_size_ : Int
  num_buckets_ : Int
  num_keys_ : Int
  arr_ : List Nat
  heap : List (bucket K V)

/-- The Go function `New(bucket_size_, hash)`: one bucket of depth 0 in a one-slot directory. -/
def New (bucket_size_ : Int) (hash : K → Int) : ExtendibleHashTable K V :=
  { hash := hash, depth_ := 0, bucket_size_ := bucket_size_, num_buckets_ := 1, num_keys_ := 0,
    arr_ := [0], heap := [newBucket bucket_size_ 0] }

/-- A checked slice access `a[i]` with a Go `int` index. -/
def sliceGet {α : Type} (a : List α) (i : Int) : Option α :=
  if 0 ≤ i then a[i.toNat]? else none

/-- The Go method `indexOf`: `hash(key) & ((1 << depth_) - 1)`. -/
def ExtendibleHashTable.indexOf (t : ExtendibleHashTable K V) (key : K) : Int :=
  let mask : Int := ((1 : Int) <<< (t.depth_ : Int)) - 1
  Int.land (t.hash key) mask

/-- The Go method `getBucket(index)`: the pointer stored in `arr_[index]`. -/
def ExtendibleHashTable.getBucket (t : ExtendibleHashTable K V) (index : Int) : Option Nat :=
  sliceGet t.arr_ index

/-- Dereference a bucket pointer. -/
def ExtendibleHashTable.deref (t : ExtendibleHashTable K V) (p : Nat) : Option (bucket K V) :=
  t.heap[p]?

/-- Write through a bucket pointer. -/
def ExtendibleHashTable.store (t : ExtendibleHashTable K V) (p : Nat) (b : bucket K V) :
    ExtendibleHashTable K V :=
  { t with heap := t.heap.set p b }

/-- The Go method `getLocalDepth(index)`: `arr_[index].depth_`. -/
def ExtendibleHashTable.getLocalDepth (t : ExtendibleHashTable K V) (index : Int) : Option Nat := do
  let p ← t.getBucket index
  let b ← t.deref p
  pure b.depth_

def ExtendibleHashTable.incrementGlobalDepth (t : ExtendibleHashTable K V) :
    ExtendibleHashTable K V :=
  { t with depth_ := t.depth_ + 1 }

def ExtendibleHashTable.GetNumberOfKeys (t : ExtendibleHashTable K V) : Int := t.num_keys_

def ExtendibleHashTable.GetGlobalDepth (t : ExtendibleHashTable K V) : Nat := t.depth_

def ExtendibleHashTable.GetNumberOfBuckets (t : ExtendibleHashTable K V) : Int := t.num_buckets_

def ExtendibleHashTable.GetNumberOfDirectories (t : ExtendibleHashTable K V) : Int :=
  (t.arr_.length : Int)

/-- The Go method `doubleDirectory`: a slice of twice the length, both halves a copy of the
old directory. -/
def ExtendibleHashTable.doubleDirectory (t : ExtendibleHashTable K V) : ExtendibleHashTable K V :=
  { t with arr_ := t.arr_ ++ t.arr_ }

/-- The Go method `Find`: `none` is a panic, `some none` is "not found", `some (some v)` is
"found" with the value written to the out-parameter. -/
def ExtendibleHashTable.Find (t : ExtendibleHashTable K V) (key : K) : Option (Option V) := do
  let i := t.indexOf key
  let p ← t.getBucket i
  let b ← t.deref p
  pure (b.find key)

/-- The partition loop of `handleFull`: each pair goes to the end of `b1` when
`high_bit & hash(key)` is zero and to the end of `b2` otherwise. -/
def splitLoop (hash : K → Int) (high_bit : Int) :
    List (pair K V) → List (pair K V) → List (pair K V) → List (pair K V) × List (pair K V)
  | [], b1, b2 => (b1, b2)
  | p :: ps, b1, b2 =>
    if Int.land high_bit (hash p.1) = 0 then splitLoop hash high_bit ps (b1 ++ [p]) b2
    else splitLoop hash high_bit ps b1 (b2 ++ [p])

/-- The rewiring loop of `handleFull`,
`for i := start; i < len(arr_); i += high_bit`, run with a bound on the number
of iterations; `none` is an out-of-range write or an exhausted bound. -/
def rewireLoop (high_bit : Int) (bkt_1 bkt_2 : Nat) : Nat → Int → List Nat → Option (List Nat)
  | 0, i, arr => if i < (arr.length : Int) then none else some arr
  | fuel + 1, i, arr =>
    if i < (arr.length : Int) then
      if 0 ≤ i ∧ i.toNat < arr.length then
        rewireLoop high_bit bkt_1 bkt_2 fuel (i + high_bit)
          (arr.set i.toNat (if Int.land i high_bit = 0 then bkt_1 else bkt_2))
      else none
    else some arr

/-- The Go method `handleFull(index, key, val)`; `none` is a panic. -/
def ExtendibleHashTable.handleFull (t : ExtendibleHashTable K V) (index : Int) (key : K) (val : V) :
    Option (ExtendibleHashTable K V) := do
  let p1 ← t.getBucket index
  let bkt_1 ← t.deref p1
  let bkt_1 := (bkt_1.insert key val).1
  let t := { t with num_keys_ := t.num_keys_ + 1 }
  let l_depth := bkt_1.getDepth
  let g_depth := t.GetGlobalDepth
  let t := if l_depth = g_depth then t.doubleDirectory.incrementGlobalDepth else t
  let bkt_1 := bkt_1.incrementDepth
  let p2 := t.heap.length
  let bkt_2 : bucket K V := newBucket bkt_1.getMaxSize (l_depth + 1)
  let t := { t with num_buckets_ := t.num_buckets_ + 1, heap := t.heap ++ [bkt_2] }
  let high_bit : Int := (1 : Int) <<< (l_depth : Int)
  let (b1, b2) := splitLoop t.hash high_bit bkt_1.getData [] []
  let bkt_1 := { bkt_1 with arr_ := b1 }
  let bkt_2 := { bkt_2 with arr_ := b2 }
  let t := (t.store p1 bkt_1).store p2 bkt_2
  let arr ← rewireLoop high_bit p1 p2 t.arr_.length (Int.land (high_bit - 1) index) t.arr_
  pure { t with arr_ := arr }

/-- The Go method `Insert(key, val)`; `none` is a panic. -/
def ExtendibleHashTable.Insert (t : ExtendibleHashTable K V) (key : K) (val : V) :
    Option (ExtendibleHashTable K V) := do
  let i := t.indexOf key
  let p ← t.getBucket i
  let b ← t.deref p
  if (b.find key).isSome then
    pure (t.store p (b.insert key val).1)
  else if !b.isFull then
    pure { t.store p (b.insert key val).1 with num_keys_ := t.num_keys_ + 1 }
  else
    t.handleFull i key val

/-- The Go method `Remove(key)`: the table afterwards and the returned flag; `none` is a panic. -/
def ExtendibleHashTable.Remove (t : ExtendibleHashTable K V) (key : K) :
    Option (ExtendibleHashTable K V × Bool) := do
  let i := t.indexOf key
  let p ← t.getBucket i
  let b ← t.deref p
  let r := b.remove key
  let t := t.store p r.1
  pure (if r.2 then { t with num_keys_ := t.num_keys_ - 1 } else t, r.2)

/-- The table states reachable from `New bucket_size hash` by `Insert` and
`Remove` calls that return. -/
inductive Reachable (bucket_size : Int) (hash : K → Int) : ExtendibleHashTable K V → Prop
  | new : Reachable bucket_size hash (New bucket_size hash)
  | insert {t t1 : ExtendibleHashTable K V} (key : K) (val : V) :
      Reachable bucket_size hash t → t.Insert key val = some t1 → Reachable bucket_size hash t1
  | remove {t t1 : ExtendibleHashTable K V} (key : K) (r : Bool) :
      Reachable bucket_size hash t → t.Remove key = some (t1, r) → Reachable bucket_size hash t1

/-! ## Proof vocabulary for `handleFull` -/

/-- The statements of `handleFull` from `bkt_1.incrementDepth()` to the end,
as a function of the table reached so far, of `index`, of the pointer `p1`
and of the value `bkt_1` of the overflowing bucket. -/
def ExtendibleHashTable.splitBucket (t : ExtendibleHashTable K V) (index : Int) (p1 : Nat)
    (bkt_1 : bucket K V) : Option (ExtendibleHashTable K V) := do
  let l_depth := bkt_1.getDepth
  let bkt_1 := bkt_1.incrementDepth
  let p2 := t.heap.length
  let bkt_2 : bucket K V := newBucket bkt_1.getMaxSize (l_depth + 1)
  let t := { t with num_buckets_ := t.num_buckets_ + 1, heap := t.heap ++ [bkt_2] }
  let high_bit : Int := (1 : Int) <<< (l_depth : Int)
  let (b1, b2) := splitLoop t.hash high_bit bkt_1.getData [] []
  let bkt_1 := { bkt_1 with arr_ := b1 }
  let bkt_2 := { bkt_2 with arr_ := b2 }
  let t := (t.store p1 bkt_1).store p2 bkt_2
  let arr ← rewireLoop high_bit p1 p2 t.arr_.length (Int.land (high_bit - 1) index) t.arr_
  pure { t with arr_ := arr }

/-- The table with the bucket at `p` replaced by `c` and `num_keys_` by `nk`. -/
def ExtendibleHashTable.put (t : ExtendibleHashTable K V) (p : Nat) (c : bucket K V) (nk : Int) :
    ExtendibleHashTable K V :=
  { t.store p c with num_keys_ := nk }

/-- The first two statements of `handleFull`: the pair is appended to the
bucket at `p` (whose value is `b`, not holding `key`) and `num_keys_` grows. -/
def ExtendibleHashTable.appendKey (t : ExtendibleHashTable K V) (p : Nat) (b : bucket K V)
    (key : K) (val : V) : ExtendibleHashTable K V :=
  { t.store p { b with arr_ := b.arr_ ++ [(key, val)] } with num_keys_ := t.num_keys_ + 1 }

/-- The conditional of `handleFull`: the directory is doubled and the global
depth incremented when the local depth `l` equals the global depth. -/
def ExtendibleHashTable.grow (t : ExtendibleHashTable K V) (l : Nat) : ExtendibleHashTable K V :=
  if l = t.depth_ then t.doubleDirectory.incrementGlobalDepth else t

/-- The pairs of `es` whose key hash has bit `l` equal to `bit`. -/
def bitPart (hash : K → Int) (l : Nat) (bit : Bool) (es : List (pair K V)) : List (pair K V) :=
  es.filter (fun e => Int.testBit (hash e.1) l == bit)

/-- The table that `splitBucket` returns, given the rewired directory `arr1`. -/
def ExtendibleHashTable.afterSplit (t : ExtendibleHashTable K V) (p1 : Nat) (b : bucket K V)
    (arr1 : List Nat) : ExtendibleHashTable K V :=
  { t with
    num_buckets_ := t.num_buckets_ + 1
    heap := t.heap.set p1 { b with depth_ := b.depth_ + 1, arr_ := bitPart t.hash b.depth_ false b.arr_ } ++
      [{ max_size_ := b.max_size_, depth_ := b.depth_ + 1,
         arr_ := bitPart t.hash b.depth_ true b.arr_ }]
    arr_ := arr1 }

/-- The directory that the rewiring loop leaves: the slots congruent to `x`
modulo `2^l` hold `p1` or `p2` according to bit `l` of their index. -/
def Rewired (arr arr1 : List Nat) (x l p1 p2 : Nat) : Prop :=
  arr1.length = arr.length ∧
    ∀ j, arr1[j]? =
      if j < arr.length ∧ j % 2 ^ l = x % 2 ^ l then
        some (if Nat.testBit j l = false then p1 else p2)
      else arr[j]?

/-! ## Specification vocabulary -/

/-- The low-order `n` bits of a Go `int`, as a natural number. -/
def lowBits (h : Int) (n : Nat) : Nat := (h % ((2 ^ n : Nat) : Int)).toNat

/-- The distinct bucket pointers held by the directory. -/
def ExtendibleHashTable.buckets (t : ExtendibleHashTable K V) : List Nat := t.arr_.dedup

/-- The pairs of the bucket at address `p` (none for a dangling address). -/
def ExtendibleHashTable.entriesAt (t : ExtendibleHashTable K V) (p : Nat) : List (pair K V) :=
  match t.heap[p]? with
  | some b => b.arr_
  | none => []

/-- The keys of the bucket at address `p`. -/
def ExtendibleHashTable.keysAt (t : ExtendibleHashTable K V) (p : Nat) : List K :=
  (t.entriesAt p).map Prod.fst

/-- All keys of the table: the keys of each distinct bucket of the directory. -/
def ExtendibleHashTable.storedKeys (t : ExtendibleHashTable K V) : List K :=
  t.buckets.flatMap t.keysAt

/-- The number of entries summed over the distinct buckets of the directory. -/
def ExtendibleHashTable.totalEntries (t : ExtendibleHashTable K V) : Nat :=
  (t.buckets.map (fun p => (t.entriesAt p).length)).sum

/-- What holds of a bucket `b` at address `p` seen from directory slot `i`. -/
structure BucketOK (t : ExtendibleHashTable K V) (i p : Nat) (b : bucket K V) : Prop where
  depth_le : b.depth_ ≤ t.depth_
  share : ∀ j, j < t.arr_.length → (t.arr_[j]? = some p ↔ j % 2 ^ b.depth_ = i % 2 ^ b.depth_)
  addr : ∀ e ∈ b.arr_, lowBits (t.hash e.1) b.depth_ = i % 2 ^ b.depth_
  nodup : (b.arr_.map Prod.fst).Nodup
  size : b.max_size_ = t.bucket_size_

/-- The representation invariant of the table. -/
structure Inv (t : ExtendibleHashTable K V) : Prop where
  len : t.arr_.length = 2 ^ t.depth_
  nb : t.num_buckets_ = (t.heap.length : Int)
  nk : t.num_keys_ = (((t.heap.map (fun b => b.arr_.length)).sum : Nat) : Int)
  onto : ∀ p, p < t.heap.length → p ∈ t.arr_
  slot : ∀ i p, t.arr_[i]? = some p → ∃ b, t.heap[p]? = some b ∧ BucketOK t i p b

/-- The directory indices that the rewiring loop of `handleFull` writes, in
order: the values of `i` in `for i := start; i < len; i += high_bit`, with
the same bound on the number of iterations as `rewireLoop`. -/
def rewireVisits (high_bit : Int) : Nat → Int → Nat → List Int
  | 0, _, _ => []
  | fuel + 1, i, len =>
    if i < (len : Int) then i :: rewireVisits high_bit fuel (i + high_bit) len else []

/-- The directory as `handleFull` has it when the rewiring loop starts: doubled
when the local depth `l` of the overflowing bucket equals the global depth. -/
def ExtendibleHashTable.dirBeforeRewire (t : ExtendibleHashTable K V) (l : Nat) : List Nat :=
  if l = t.GetGlobalDepth then t.doubleDirectory.arr_ else t.arr_

/-! ## Example tables -/

/-- A hash function on numeric keys: the key itself. -/
def idHash : Nat → Int := fun k => (k : Int)

/-- The table `New 1 idHash` after `Insert 1 10`: one full bucket. -/
def exOne : ExtendibleHashTable Nat Nat :=
  { hash := idHash, depth_ := 0, bucket_size_ := 1, num_buckets_ := 1, num_keys_ := 1,
    arr_ := [0], heap := [{ max_size_ := 1, depth_ := 0, arr_ := [(1, 10)] }] }

/-- The table `exOne` after `Insert 3 30`: the directory has doubled and both
keys sit in the new sibling, above the capacity. -/
def exTwo : ExtendibleHashTable Nat Nat :=
  { hash := idHash, depth_ := 1, bucket_size_ := 1, num_buckets_ := 2, num_keys_ := 2,
    arr_ := [0, 1],
    heap := [{ max_size_ := 1, depth_ := 1, arr_ := [] },
             { max_size_ := 1, depth_ := 1, arr_ := [(1, 10), (3, 30)] }] }

/-- The table `exTwo` after `Insert 2 20`. -/
def exThree : ExtendibleHashTable Nat Nat :=
  { hash := idHash, depth_ := 1, bucket_size_ := 1, num_buckets_ := 2, num_keys_ := 3,
    arr_ := [0, 1],
    heap := [{ max_size_ := 1, depth_ := 1, arr_ := [(2, 20)] },
             { max_size_ := 1, depth_ := 1, arr_ := [(1, 10), (3, 30)] }] }

/-- The table `New 1 idHash` after `Insert 2 20`. -/
def exEvenOne : ExtendibleHashTable Nat Nat :=
  { hash := idHash, depth_ := 0, bucket_size_ := 1, num_buckets_ := 1, num_keys_ := 1,
    arr_ := [0], heap := [{ max_size_ := 1, depth_ := 0, arr_ := [(2, 20)] }] }

/-- The table `exEvenOne` after `Insert 4 40`: both keys stay in the original
bucket and the new sibling is empty. -/
def exEvenTwo : ExtendibleHashTable Nat Nat :=
  { hash := idHash, depth_ := 1, bucket_size_ := 1, num_buckets_ := 2, num_keys_ := 2,
    arr_ := [0, 1],
    heap := [{ max_size_ := 1, depth_ := 1, arr_ := [(2, 20), (4, 40)] },
             { max_size_ := 1, depth_ := 1, arr_ := [] }] }

set_option linter.unusedSectionVars false

/-! ## Arithmetic of the bit operations -/

theorem nat_ldiff_mask (m n : Nat) : Nat.ldiff (2 ^ n - 1) m = 2 ^ n - (m % 2 ^ n + 1) := by
  apply Nat.eq_of_testBit_eq
  intro i
  rw [Nat.testBit_ldiff, Nat.testBit_two_pow_sub_one,
    Nat.testBit_two_pow_sub_succ (Nat.mod_lt _ (Nat.two_pow_pos n)), Nat.testBit_mod_two_pow]
  cases decide (i < n) <;> cases m.testBit i <;> rfl

theorem land_mask_eq_emod (h : Int) (n : Nat) :
    Int.land h ((1 : Int) <<< (n : Int) - 1) = h % ((2 ^ n : Nat) : Int) := by
  have hpos : 0 < 2 ^ n := Nat.two_pow_pos n
  have hm : (1 : Int) <<< (n : Int) - 1 = ((2 ^ n - 1 : Nat) : Int) := by
    rw [Int.one_shiftLeft]; omega
  rw [hm]
  cases h with
  | ofNat m =>
    show ((m &&& (2 ^ n - 1) : Nat) : Int) = _
    rw [Nat.and_pow_two_sub_one_eq_mod]
    exact Int.ofNat_emod m (2 ^ n)
  | negSucc m =>
    show ((Nat.ldiff (2 ^ n - 1) m : Nat) : Int) = _
    rw [nat_ldiff_mask, Int.negSucc_emod m (by exact_mod_cast hpos)]
    have := Nat.mod_lt m hpos
    have h2 : ((m : Int) % ((2 ^ n : Nat) : Int)) = ((m % 2 ^ n : Nat) : Int) := (Int.ofNat_emod m (2 ^ n)).symm
    rw [h2]
    omega


theorem lowBits_cast (h : Int) (n : Nat) : ((lowBits h n : Nat) : Int) = h % ((2 ^ n : Nat) : Int) := by
  have hpos : (0 : Int) < ((2 ^ n : Nat) : Int) := by exact_mod_cast Nat.two_pow_pos n
  exact Int.toNat_of_nonneg (Int.emod_nonneg _ (ne_of_gt hpos))

theorem lowBits_lt (h : Int) (n : Nat) : lowBits h n < 2 ^ n := by
  have hpos : (0 : Int) < ((2 ^ n : Nat) : Int) := by exact_mod_cast Nat.two_pow_pos n
  have := Int.emod_lt_of_pos h hpos
  have := lowBits_cast h n
  omega

theorem lowBits_ofNat (m n : Nat) : lowBits (m : Int) n = m % 2 ^ n := by
  have := lowBits_cast (m : Int) n
  have h2 : ((m : Int) % ((2 ^ n : Nat) : Int)) = ((m % 2 ^ n : Nat) : Int) := (Int.ofNat_emod m (2 ^ n)).symm
  omega

theorem lowBits_negSucc (m n : Nat) : lowBits (Int.negSucc m) n = 2 ^ n - (m % 2 ^ n + 1) := by
  have hpos : 0 < 2 ^ n := Nat.two_pow_pos n
  have := lowBits_cast (Int.negSucc m) n
  rw [Int.negSucc_emod m (by exact_mod_cast hpos)] at this
  have h2 : ((m : Int) % ((2 ^ n : Nat) : Int)) = ((m % 2 ^ n : Nat) : Int) := (Int.ofNat_emod m (2 ^ n)).symm
  have := Nat.mod_lt m hpos
  omega

theorem lowBits_mod (h : Int) {l g : Nat} (hl : l ≤ g) : lowBits h g % 2 ^ l = lowBits h l := by
  have hd : (((2 ^ l : Nat) : Int)) ∣ (((2 ^ g : Nat) : Int)) := by
    exact_mod_cast pow_dvd_pow 2 hl
  have h1 := lowBits_cast h g
  have h2 := lowBits_cast h l
  have h3 : ((lowBits h g % 2 ^ l : Nat) : Int) = (lowBits h l : Int) := by
    rw [Int.ofNat_emod, h1, h2, Int.emod_emod_of_dvd _ hd]
  exact_mod_cast h3

theorem land_high_bit_eq_zero (h : Int) (l : Nat) :
    Int.land ((1 : Int) <<< (l : Int)) h = 0 ↔ Int.testBit h l = false := by
  rw [Int.one_shiftLeft]
  cases h with
  | ofNat m =>
    show ((2 ^ l &&& m : Nat) : Int) = 0 ↔ Nat.testBit m l = false
    constructor
    · intro h0
      have h1 : 2 ^ l &&& m = 0 := by exact_mod_cast h0
      have := congrArg (fun x => Nat.testBit x l) h1
      simpa [Nat.testBit_and, Nat.testBit_two_pow_self] using this
    · intro hb
      have : 2 ^ l &&& m = 0 := by
        apply Nat.eq_of_testBit_eq
        intro i
        rw [Nat.testBit_and, Nat.testBit_two_pow, Nat.zero_testBit]
        by_cases hi : l = i
        · subst hi; simp [hb]
        · simp [hi]
      rw [this]; rfl
  | negSucc m =>
    show ((Nat.ldiff (2 ^ l) m : Nat) : Int) = 0 ↔ (!Nat.testBit m l) = false
    constructor
    · intro h0
      have h1 : Nat.ldiff (2 ^ l) m = 0 := by exact_mod_cast h0
      have := congrArg (fun x => Nat.testBit x l) h1
      simpa [Nat.testBit_ldiff, Nat.testBit_two_pow_self] using this
    · intro hb
      have : Nat.ldiff (2 ^ l) m = 0 := by
        apply Nat.eq_of_testBit_eq
        intro i
        rw [Nat.testBit_ldiff, Nat.testBit_two_pow, Nat.zero_testBit]
        by_cases hi : l = i
        · subst hi; simpa using hb
        · simp [hi]
      rw [this]; rfl

theorem lowBits_succ (h : Int) (l : Nat) :
    lowBits h (l + 1) = lowBits h l + (if Int.testBit h l = false then 0 else 2 ^ l) := by
  have hpos : 0 < 2 ^ l := Nat.two_pow_pos l
  cases h with
  | ofNat m =>
    show lowBits (m : Int) (l + 1) = lowBits (m : Int) l + (if Nat.testBit m l = false then 0 else 2 ^ l)
    rw [lowBits_ofNat, lowBits_ofNat, Nat.mod_pow_succ, Nat.testBit_to_div_mod]
    rcases Nat.mod_two_eq_zero_or_one (m / 2 ^ l) with h0 | h0 <;> simp [h0]
  | negSucc m =>
    show lowBits (Int.negSucc m) (l + 1) = lowBits (Int.negSucc m) l + (if (!Nat.testBit m l) = false then 0 else 2 ^ l)
    rw [lowBits_negSucc, lowBits_negSucc, Nat.mod_pow_succ, Nat.testBit_to_div_mod]
    have := Nat.mod_lt m hpos
    have hp : 2 ^ (l + 1) = 2 * 2 ^ l := by rw [pow_succ]; ring
    rcases Nat.mod_two_eq_zero_or_one (m / 2 ^ l) with h0 | h0 <;> simp [h0] <;> omega


/-! ## Lemmas about the bucket scans -/

theorem findArr_eq_none_iff (key : K) (es : List (pair K V)) :
    findArr key es = none ↔ key ∉ es.map Prod.fst := by
  induction es with
  | nil => simp [findArr]
  | cons p ps ih =>
    by_cases h : p.1 = key
    · simp [findArr, h]
    · simp only [findArr, h, if_false, ih, List.map_cons, List.mem_cons, not_or]
      constructor
      · intro h1; exact ⟨fun h2 => h h2.symm, h1⟩
      · intro h1; exact h1.2

theorem findArr_isSome_iff (key : K) (es : List (pair K V)) :
    (findArr key es).isSome ↔ key ∈ es.map Prod.fst := by
  rw [← not_iff_not, ← findArr_eq_none_iff]
  cases findArr key es <;> simp

theorem findArr_mem {key : K} {v : V} {es : List (pair K V)} (h : findArr key es = some v) :
    (key, v) ∈ es := by
  induction es with
  | nil => simp [findArr] at h
  | cons p ps ih =>
    by_cases hp : p.1 = key
    · simp only [findArr, hp, if_true, Option.some.injEq] at h
      have : p = (key, v) := Prod.ext hp h
      simp [this]
    · simp only [findArr, hp, if_false] at h
      exact List.mem_cons_of_mem _ (ih h)

theorem findArr_append (key : K) (es fs : List (pair K V)) :
    findArr key (es ++ fs) = (findArr key es).orElse (fun _ => findArr key fs) := by
  induction es with
  | nil => simp [findArr]
  | cons p ps ih =>
    by_cases hp : p.1 = key
    · simp [findArr, hp]
    · simp [findArr, hp, ih]

theorem findArr_filter (key : K) (P : pair K V → Bool) (es : List (pair K V))
    (hP : ∀ e ∈ es, e.1 = key → P e = true) :
    findArr key (es.filter P) = findArr key es := by
  induction es with
  | nil => rfl
  | cons p ps ih =>
    have ih1 := ih (fun e he => hP e (List.mem_cons_of_mem _ he))
    by_cases hp : p.1 = key
    · have := hP p (List.mem_cons_self _ _) hp
      simp [List.filter_cons, this, findArr, hp]
    · cases hq : P p
      · simp [List.filter_cons, hq, findArr, hp, ih1]
      · simp [List.filter_cons, hq, findArr, hp, ih1]

theorem updateArr_eq_none_iff (key : K) (val : V) (es : List (pair K V)) :
    updateArr key val es = none ↔ findArr key es = none := by
  induction es with
  | nil => simp [updateArr, findArr]
  | cons p ps ih =>
    by_cases hp : p.1 = key
    · simp [updateArr, findArr, hp]
    · simp [updateArr, findArr, hp, ih]

theorem updateArr_spec {key : K} {val : V} {es a : List (pair K V)}
    (h : updateArr key val es = some a) :
    a.map Prod.fst = es.map Prod.fst ∧ a.length = es.length ∧ findArr key a = some val ∧
      (∀ k1, k1 ≠ key → findArr k1 a = findArr k1 es) ∧
      a.filter (fun e => !decide (e.1 = key)) = es.filter (fun e => !decide (e.1 = key)) := by
  induction es generalizing a with
  | nil => simp [updateArr] at h
  | cons p ps ih =>
    by_cases hp : p.1 = key
    · simp only [updateArr, hp, if_true, Option.some.injEq] at h
      subst h
      refine ⟨by simp [hp], by simp, by simp [findArr], ?_, ?_⟩
      · intro k1 hk
        have : ¬ key = k1 := fun h => hk h.symm
        have : ¬ p.1 = k1 := by rw [hp]; exact this
        simp [findArr, *]
      · simp [List.filter_cons, hp]
    · simp only [updateArr, hp, if_false, Option.map_eq_some'] at h
      obtain ⟨r, hr, rfl⟩ := h
      obtain ⟨h1, h2, h3, h4, h5⟩ := ih hr
      refine ⟨by simp [h1], by simp [h2], by simp [findArr, hp, h3], ?_, ?_⟩
      · intro k1 hk
        by_cases hq : p.1 = k1
        · simp [findArr, hq]
        · simp [findArr, hq, h4 k1 hk]
      · simp [List.filter_cons, hp, h5]

theorem removeArr_eq_none_iff (key : K) (es : List (pair K V)) :
    removeArr key es = none ↔ findArr key es = none := by
  induction es with
  | nil => simp [removeArr, findArr]
  | cons p ps ih =>
    by_cases hp : p.1 = key
    · simp [removeArr, findArr, hp]
    · simp [removeArr, findArr, hp, ih]

theorem removeArr_spec {key : K} {es a : List (pair K V)}
    (h : removeArr key es = some a) :
    a.length + 1 = es.length ∧ a.Sublist es ∧
      (∀ k1, k1 ≠ key → findArr k1 a = findArr k1 es) ∧
      ((es.map Prod.fst).Nodup → findArr key a = none) := by
  induction es generalizing a with
  | nil => simp [removeArr] at h
  | cons p ps ih =>
    by_cases hp : p.1 = key
    · simp only [removeArr, hp, if_true, Option.some.injEq] at h
      subst h
      refine ⟨by simp, List.sublist_cons_self _ _, ?_, ?_⟩
      · intro k1 hk
        have : ¬ p.1 = k1 := by rw [hp]; exact fun h => hk h.symm
        simp [findArr, this]
      · intro hnd
        rw [findArr_eq_none_iff, ← hp]
        exact (List.nodup_cons.mp hnd).1
    · simp only [removeArr, hp, if_false, Option.map_eq_some'] at h
      obtain ⟨r, hr, rfl⟩ := h
      obtain ⟨h1, h2, h3, h4⟩ := ih hr
      refine ⟨by simp [h1], h2.cons₂ _, ?_, ?_⟩
      · intro k1 hk
        by_cases hq : p.1 = k1
        · simp [findArr, hq]
        · simp [findArr, hq, h3 k1 hk]
      · intro hnd
        simp [findArr, hp, h4 (List.nodup_cons.mp hnd).2]

theorem splitLoop_eq (hash : K → Int) (high_bit : Int) (es b1 b2 : List (pair K V)) :
    splitLoop hash high_bit es b1 b2 =
      (b1 ++ es.filter (fun p => decide (Int.land high_bit (hash p.1) = 0)),
       b2 ++ es.filter (fun p => !decide (Int.land high_bit (hash p.1) = 0))) := by
  induction es generalizing b1 b2 with
  | nil => simp [splitLoop]
  | cons p ps ih =>
    by_cases hp : Int.land high_bit (hash p.1) = 0
    · simp [splitLoop, hp, ih, List.filter_cons]
    · simp [splitLoop, hp, ih, List.filter_cons]

/-! ## Indexing -/

theorem indexOf_eq (t : ExtendibleHashTable K V) (key : K) :
    t.indexOf key = ((lowBits (t.hash key) t.depth_ : Nat) : Int) := by
  unfold ExtendibleHashTable.indexOf
  simp only []
  rw [land_mask_eq_emod, lowBits_cast]

theorem sliceGet_ofNat {α : Type} (a : List α) (n : Nat) : sliceGet a (n : Int) = a[n]? := by
  simp [sliceGet]

theorem getBucket_indexOf (t : ExtendibleHashTable K V) (key : K) :
    t.getBucket (t.indexOf key) = t.arr_[lowBits (t.hash key) t.depth_]? := by
  rw [indexOf_eq]; exact sliceGet_ofNat _ _

theorem Inv.lookup {t : ExtendibleHashTable K V} (h : Inv t) (key : K) :
    ∃ p b, t.arr_[lowBits (t.hash key) t.depth_]? = some p ∧ t.heap[p]? = some b ∧
      BucketOK t (lowBits (t.hash key) t.depth_) p b := by
  have hlt : lowBits (t.hash key) t.depth_ < t.arr_.length := by
    rw [h.len]; exact lowBits_lt _ _
  obtain ⟨b, hb, hok⟩ := h.slot _ _ (List.getElem?_eq_getElem hlt)
  exact ⟨_, b, List.getElem?_eq_getElem hlt, hb, hok⟩

theorem Find_eq {t : ExtendibleHashTable K V} {key : K} {p : Nat} {b : bucket K V}
    (hp : t.arr_[lowBits (t.hash key) t.depth_]? = some p) (hb : t.heap[p]? = some b) :
    t.Find key = some (findArr key b.arr_) := by
  simp [ExtendibleHashTable.Find, getBucket_indexOf, hp, ExtendibleHashTable.deref, hb, bucket.find]

/-- Every key of a bucket is addressed to that bucket. -/
theorem Inv.slot_of_key {t : ExtendibleHashTable K V} (h : Inv t) {i p : Nat} {b : bucket K V}
    (hi : t.arr_[i]? = some p) (hb : t.heap[p]? = some b) {e : pair K V} (he : e ∈ b.arr_) :
    t.arr_[lowBits (t.hash e.1) t.depth_]? = some p := by
  obtain ⟨b1, hb1, hok⟩ := h.slot i p hi
  rw [hb] at hb1
  cases hb1
  have hlt : lowBits (t.hash e.1) t.depth_ < t.arr_.length := by
    rw [h.len]; exact lowBits_lt _ _
  rw [hok.share _ hlt, lowBits_mod _ hok.depth_le]
  exact hok.addr e he

theorem Inv_New (c : Int) (hash : K → Int) : Inv (New c hash : ExtendibleHashTable K V) where
  len := rfl
  nb := rfl
  nk := rfl
  onto := by
    intro p hp
    simp [New] at hp ⊢
    exact hp
  slot := by
    intro i p hi
    have hi0 : i = 0 := by
      cases i with
      | zero => rfl
      | succ n => simp [New] at hi
    subst hi0
    simp [New] at hi
    subst hi
    refine ⟨newBucket c 0, rfl, ?_⟩
    refine ⟨Nat.le_refl _, ?_, ?_, ?_, rfl⟩
    · intro j hj
      have hj0 : j = 0 := by simp [New] at hj; exact hj
      subst hj0
      simp [New, newBucket]
    · intro e he; simp [newBucket] at he
    · simp [newBucket]

theorem sum_map_set {α : Type} (f : α → Nat) :
    ∀ (l : List α) (p : Nat) (a b : α), l[p]? = some a →
      ((l.set p b).map f).sum + f a = (l.map f).sum + f b := by
  intro l
  induction l with
  | nil => intro p a b h; simp at h
  | cons x xs ih =>
    intro p a b h
    cases p with
    | zero =>
      simp at h
      subst h
      simp; omega
    | succ n =>
      simp at h
      have := ih n a b h
      simp only [List.set_cons_succ, List.map_cons, List.sum_cons]; omega

/-- Replacing the contents of one bucket, depth and capacity kept, preserves
the invariant when the new contents are duplicate-free and addressed to it. -/
theorem Inv.store_bucket {t : ExtendibleHashTable K V} (h : Inv t) {i p : Nat} {b c : bucket K V}
    (hi : t.arr_[i]? = some p) (hb : t.heap[p]? = some b)
    (hd : c.depth_ = b.depth_) (hs : c.max_size_ = b.max_size_)
    (hn : (c.arr_.map Prod.fst).Nodup)
    (ha : ∀ e ∈ c.arr_, lowBits (t.hash e.1) b.depth_ = i % 2 ^ b.depth_)
    (nk : Int) (hnk : nk + (b.arr_.length : Int) = t.num_keys_ + (c.arr_.length : Int)) :
    Inv (t.put p c nk) where
  len := h.len
  nb := by simpa [ExtendibleHashTable.put, ExtendibleHashTable.store] using h.nb
  nk := by
    have := sum_map_set (fun b : bucket K V => b.arr_.length) t.heap p b c hb
    have h2 := h.nk
    simp only [ExtendibleHashTable.put, ExtendibleHashTable.store]
    beta_reduce at this
    omega
  onto := by
    intro q hq
    simp only [ExtendibleHashTable.put, ExtendibleHashTable.store, List.length_set] at hq
    exact h.onto q hq
  slot := by
    intro j q hj
    simp only [ExtendibleHashTable.put, ExtendibleHashTable.store] at hj ⊢
    obtain ⟨bq, hbq, hok⟩ := h.slot j q hj
    have hplt : p < t.heap.length := by
      rcases Nat.lt_or_ge p t.heap.length with h1 | h1
      · exact h1
      · rw [List.getElem?_eq_none h1] at hb; cases hb
    by_cases hqp : q = p
    · subst hqp
      rw [hb] at hbq
      cases hbq
      refine ⟨c, by simp [List.getElem?_set, hplt], ?_⟩
      have hlen : j < t.arr_.length := by
        rcases Nat.lt_or_ge j t.arr_.length with h1 | h1
        · exact h1
        · rw [List.getElem?_eq_none h1] at hj; cases hj
      have hij : i % 2 ^ b.depth_ = j % 2 ^ b.depth_ := by
        have hil : i < t.arr_.length := by
          rcases Nat.lt_or_ge i t.arr_.length with h1 | h1
          · exact h1
          · rw [List.getElem?_eq_none h1] at hi; cases hi
        exact (hok.share i hil).mp hi
      refine ⟨by rw [hd]; exact hok.depth_le, ?_, ?_, hn, by rw [hs]; exact hok.size⟩
      · intro j1 hj1; rw [hd]; exact hok.share j1 hj1
      · intro e he; rw [hd, ← hij]; exact ha e he
    · refine ⟨bq, by simp [List.getElem?_set, Ne.symm hqp, hbq], ?_⟩
      exact ⟨hok.depth_le, hok.share, hok.addr, hok.nodup, hok.size⟩

/-! ## Bits of directory indices -/

theorem nat_mod_succ (y l : Nat) :
    y % 2 ^ (l + 1) = y % 2 ^ l + (if Nat.testBit y l = false then 0 else 2 ^ l) := by
  have := lowBits_succ (y : Int) l
  rw [lowBits_ofNat, lowBits_ofNat] at this
  exact this

theorem mod_succ_eq_iff (i j l : Nat) :
    j % 2 ^ (l + 1) = i % 2 ^ (l + 1) ↔ j % 2 ^ l = i % 2 ^ l ∧ Nat.testBit j l = Nat.testBit i l := by
  rw [nat_mod_succ j l, nat_mod_succ i l]
  have hpos : 0 < 2 ^ l := Nat.two_pow_pos l
  have h1 := Nat.mod_lt j hpos
  have h2 := Nat.mod_lt i hpos
  cases hj : Nat.testBit j l <;> cases hi : Nat.testBit i l <;> simp <;> omega

theorem testBit_lowBits (h : Int) {l g : Nat} (hl : l < g) :
    Nat.testBit (lowBits h g) l = Int.testBit h l := by
  have h1 := nat_mod_succ (lowBits h g) l
  rw [lowBits_mod h (Nat.succ_le_of_lt hl), lowBits_mod h (Nat.le_of_lt hl), lowBits_succ] at h1
  have hpos : 0 < 2 ^ l := Nat.two_pow_pos l
  cases hj : Nat.testBit (lowBits h g) l <;> cases hi : Int.testBit h l <;>
    first
    | rfl
    | (exfalso; rw [hj, hi] at h1; simp only [if_true, if_false, Bool.true_eq_false, Bool.false_eq_true] at h1; omega)

theorem land_ofNat_high_bit (n l : Nat) :
    Int.land (n : Int) ((1 : Int) <<< (l : Int)) = 0 ↔ Nat.testBit n l = false := by
  have h := land_high_bit_eq_zero (n : Int) l
  rw [Int.one_shiftLeft] at h ⊢
  have hc : Int.land (n : Int) ((2 ^ l : Nat) : Int) = Int.land ((2 ^ l : Nat) : Int) (n : Int) := by
    show ((n &&& 2 ^ l : Nat) : Int) = ((2 ^ l &&& n : Nat) : Int)
    rw [Nat.and_comm]
  rw [hc, h]
  rfl

theorem land_mask_ofNat (x l : Nat) :
    Int.land ((1 : Int) <<< (l : Int) - 1) (x : Int) = ((x % 2 ^ l : Nat) : Int) := by
  have hpos : 0 < 2 ^ l := Nat.two_pow_pos l
  have hm : (1 : Int) <<< (l : Int) - 1 = ((2 ^ l - 1 : Nat) : Int) := by
    rw [Int.one_shiftLeft]; omega
  rw [hm]
  show (((2 ^ l - 1) &&& x : Nat) : Int) = _
  rw [Nat.and_comm, Nat.and_pow_two_sub_one_eq_mod]

theorem mod_step {n j M : Nat} (hlt : n < j) (hm : j % M = n % M) : n + M ≤ j := by
  by_contra hc
  have h0 : (j - n) % M = 0 := Nat.sub_mod_eq_zero_of_mod_eq hm
  have h1 : (j - n) % M = j - n := Nat.mod_eq_of_lt (by omega)
  omega

theorem getElem?_append_self {α : Type} (a : List α) (i : Nat) (hi : i < 2 * a.length) :
    (a ++ a)[i]? = a[i % a.length]? := by
  rcases Nat.lt_or_ge i a.length with h | h
  · rw [List.getElem?_append_left h, Nat.mod_eq_of_lt h]
  · rw [List.getElem?_append_right h]
    have : i % a.length = i - a.length := by
      rw [Nat.mod_eq_sub_mod h, Nat.mod_eq_of_lt (by omega)]
    rw [this]

theorem lt_of_getElem?_eq_some {α : Type} {a : List α} {i : Nat} {x : α} (h : a[i]? = some x) :
    i < a.length := by
  rcases Nat.lt_or_ge i a.length with h1 | h1
  · exact h1
  · rw [List.getElem?_eq_none h1] at h; cases h

/-! ## The rewiring loop -/

theorem rewireLoop_spec (l p1 p2 : Nat) : ∀ (fuel n : Nat) (arr : List Nat),
    arr.length ≤ n + fuel →
    ∃ arr1, rewireLoop ((1 : Int) <<< (l : Int)) p1 p2 fuel (n : Int) arr = some arr1 ∧
      arr1.length = arr.length ∧
      ∀ j, arr1[j]? =
        if n ≤ j ∧ j < arr.length ∧ j % 2 ^ l = n % 2 ^ l then
          some (if Nat.testBit j l = false then p1 else p2)
        else arr[j]? := by
  intro fuel
  induction fuel with
  | zero =>
    intro n arr hlen
    refine ⟨arr, ?_, rfl, ?_⟩
    · have : ¬ ((n : Int) < (arr.length : Int)) := by omega
      simp [rewireLoop, this]
    · intro j
      have : ¬ (n ≤ j ∧ j < arr.length ∧ j % 2 ^ l = n % 2 ^ l) := by omega
      rw [if_neg this]
  | succ fuel ih =>
    intro n arr hlen
    have hpos : 0 < 2 ^ l := Nat.two_pow_pos l
    by_cases hn : n < arr.length
    · have hstep : (n : Int) + (1 : Int) <<< (l : Int) = ((n + 2 ^ l : Nat) : Int) := by
        rw [Int.one_shiftLeft]; push_cast; rfl
      have hc : (if Int.land (n : Int) ((1 : Int) <<< (l : Int)) = 0 then p1 else p2) =
          (if Nat.testBit n l = false then p1 else p2) := by
        by_cases hb : Nat.testBit n l = false
        · rw [if_pos ((land_ofNat_high_bit n l).mpr hb), if_pos hb]
        · rw [if_neg (fun h => hb ((land_ofNat_high_bit n l).mp h)), if_neg hb]
      obtain ⟨arr1, h1, h2, h3⟩ := ih (n + 2 ^ l)
        (arr.set n (if Nat.testBit n l = false then p1 else p2))
        (by rw [List.length_set]; omega)
      refine ⟨arr1, ?_, by rw [h2, List.length_set], ?_⟩
      · have hn1 : (n : Int) < (arr.length : Int) := by omega
        have hn2 : (0 : Int) ≤ (n : Int) ∧ (n : Int).toNat < arr.length := by
          constructor
          · omega
          · simpa using hn
        rw [rewireLoop, if_pos hn1, if_pos hn2, hstep, hc]
        simpa using h1
      · intro j
        rw [h3 j, List.length_set, Nat.add_mod_right]
        by_cases hjn : j = n
        · subst hjn
          have c1 : ¬ (j + 2 ^ l ≤ j ∧ j < arr.length ∧ j % 2 ^ l = j % 2 ^ l) := by omega
          have c2 : j ≤ j ∧ j < arr.length ∧ j % 2 ^ l = j % 2 ^ l := ⟨Nat.le_refl _, hn, rfl⟩
          rw [if_neg c1, if_pos c2]
          simp [List.getElem?_set, hn]
        · have hset : (arr.set n (if Nat.testBit n l = false then p1 else p2))[j]? = arr[j]? := by
            rw [List.getElem?_set_ne (Ne.symm hjn)]
          rw [hset]
          by_cases c2 : n ≤ j ∧ j < arr.length ∧ j % 2 ^ l = n % 2 ^ l
          · have c1 : n + 2 ^ l ≤ j ∧ j < arr.length ∧ j % 2 ^ l = n % 2 ^ l :=
              ⟨mod_step (by omega) c2.2.2, c2.2.1, c2.2.2⟩
            rw [if_pos c1, if_pos c2]
          · have c1 : ¬ (n + 2 ^ l ≤ j ∧ j < arr.length ∧ j % 2 ^ l = n % 2 ^ l) := by
              intro h; exact c2 ⟨by omega, h.2.1, h.2.2⟩
            rw [if_neg c1, if_neg c2]
    · refine ⟨arr, ?_, rfl, ?_⟩
      · have : ¬ ((n : Int) < (arr.length : Int)) := by omega
        simp [rewireLoop, this]
      · intro j
        have : ¬ (n ≤ j ∧ j < arr.length ∧ j % 2 ^ l = n % 2 ^ l) := by omega
        rw [if_neg this]

/-- The rewiring loop of `handleFull`, started at `index & (high_bit - 1)` with
the directory length as bound, returns, and rewires exactly the slots
congruent to `index` modulo `2^l`. -/
theorem rewire_result (l p1 p2 x : Nat) (arr : List Nat) :
    ∃ arr1, rewireLoop ((1 : Int) <<< (l : Int)) p1 p2 arr.length
        (Int.land ((1 : Int) <<< (l : Int) - 1) (x : Int)) arr = some arr1 ∧
      arr1.length = arr.length ∧
      ∀ j, arr1[j]? =
        if j < arr.length ∧ j % 2 ^ l = x % 2 ^ l then
          some (if Nat.testBit j l = false then p1 else p2)
        else arr[j]? := by
  rw [land_mask_ofNat]
  obtain ⟨arr1, h1, h2, h3⟩ := rewireLoop_spec l p1 p2 arr.length (x % 2 ^ l) arr (by omega)
  refine ⟨arr1, h1, h2, ?_⟩
  intro j
  rw [h3 j, Nat.mod_mod]
  have hle : j % 2 ^ l ≤ j := Nat.mod_le _ _
  by_cases c : j < arr.length ∧ j % 2 ^ l = x % 2 ^ l
  · rw [if_pos c, if_pos ⟨by omega, c.1, c.2⟩]
  · rw [if_neg c, if_neg (fun h => c ⟨h.2.1, h.2.2⟩)]

/-! ## `handleFull` in closed form -/

theorem handleFull_eq (t : ExtendibleHashTable K V) (index : Int) (key : K) (val : V) :
    t.handleFull index key val =
      (t.getBucket index).bind (fun p1 => (t.deref p1).bind (fun b =>
        let t1 := { t with num_keys_ := t.num_keys_ + 1 }
        ExtendibleHashTable.splitBucket
          (if (b.insert key val).1.depth_ = t1.depth_ then t1.doubleDirectory.incrementGlobalDepth else t1)
          index p1 (b.insert key val).1)) := by
  rfl

theorem bitPart_eq_filter (hash : K → Int) (l : Nat) (es : List (pair K V)) :
    es.filter (fun p => decide (Int.land ((1 : Int) <<< (l : Int)) (hash p.1) = 0)) = bitPart hash l false es ∧
    es.filter (fun p => !decide (Int.land ((1 : Int) <<< (l : Int)) (hash p.1) = 0)) = bitPart hash l true es := by
  constructor
  · apply List.filter_congr
    intro e _
    by_cases h : Int.testBit (hash e.1) l = false
    · simp [h, (land_high_bit_eq_zero (hash e.1) l).mpr h]
    · have h1 : ¬ Int.land ((1 : Int) <<< (l : Int)) (hash e.1) = 0 :=
        fun h2 => h ((land_high_bit_eq_zero (hash e.1) l).mp h2)
      simp at h
      simp [h, h1]
  · apply List.filter_congr
    intro e _
    by_cases h : Int.testBit (hash e.1) l = false
    · simp [h, (land_high_bit_eq_zero (hash e.1) l).mpr h]
    · have h1 : ¬ Int.land ((1 : Int) <<< (l : Int)) (hash e.1) = 0 :=
        fun h2 => h ((land_high_bit_eq_zero (hash e.1) l).mp h2)
      simp at h
      simp [h, h1]

theorem splitBucket_eq (t : ExtendibleHashTable K V) (x p1 : Nat) (b : bucket K V)
    (hp1 : p1 < t.heap.length) :
    ∃ arr1, t.splitBucket (x : Int) p1 b = some (t.afterSplit p1 b arr1) ∧
      Rewired t.arr_ arr1 x b.depth_ p1 t.heap.length := by
  obtain ⟨arr1, h1, h2, h3⟩ := rewire_result b.depth_ p1 t.heap.length x t.arr_
  refine ⟨arr1, ?_, h2, h3⟩
  obtain ⟨f1, f2⟩ := bitPart_eq_filter t.hash b.depth_ b.arr_
  simp only [ExtendibleHashTable.splitBucket, bucket.getDepth, bucket.incrementDepth,
    bucket.getData, bucket.getMaxSize, splitLoop_eq, List.nil_append, f1, f2,
    ExtendibleHashTable.store, newBucket, h1]
  simp only [ExtendibleHashTable.afterSplit, Option.bind_eq_bind, Option.some_bind,
    Option.pure_def, Option.some.injEq]
  congr 1
  rw [List.set_append_left _ _ hp1, List.set_append_right _ _ (by simp)]
  simp

/-! ## Directory doubling -/

theorem double_getElem? {t : ExtendibleHashTable K V} (h : Inv t) {i : Nat}
    (hi : i < 2 ^ (t.depth_ + 1)) :
    (t.arr_ ++ t.arr_)[i]? = t.arr_[i % 2 ^ t.depth_]? := by
  rw [getElem?_append_self _ _ (by rw [h.len, pow_succ] at *; omega), h.len]

theorem Inv.double {t : ExtendibleHashTable K V} (h : Inv t) :
    Inv t.doubleDirectory.incrementGlobalDepth where
  len := by
    simp only [ExtendibleHashTable.doubleDirectory, ExtendibleHashTable.incrementGlobalDepth,
      List.length_append, h.len, pow_succ]
    omega
  nb := h.nb
  nk := h.nk
  onto := by
    intro p hp
    exact List.mem_append_left _ (h.onto p hp)
  slot := by
    intro i p hi
    simp only [ExtendibleHashTable.doubleDirectory, ExtendibleHashTable.incrementGlobalDepth] at hi ⊢
    have hlen : i < 2 ^ (t.depth_ + 1) := by
      have := lt_of_getElem?_eq_some hi
      rw [List.length_append, h.len] at this
      rw [pow_succ]; omega
    rw [double_getElem? h hlen] at hi
    obtain ⟨b, hb, hok⟩ := h.slot _ p hi
    have hd : 2 ^ b.depth_ ∣ 2 ^ t.depth_ := pow_dvd_pow 2 hok.depth_le
    refine ⟨b, hb, ⟨Nat.le_succ_of_le hok.depth_le, ?_, ?_, hok.nodup, hok.size⟩⟩
    · intro j hj
      have hj1 : j < 2 ^ (t.depth_ + 1) := by
        rw [List.length_append, h.len] at hj
        rw [pow_succ]; omega
      rw [double_getElem? h hj1,
        hok.share _ (by rw [h.len]; exact Nat.mod_lt _ (Nat.two_pow_pos _)),
        Nat.mod_mod_of_dvd _ hd, Nat.mod_mod_of_dvd _ hd]
    · intro e he
      rw [hok.addr e he, Nat.mod_mod_of_dvd _ hd]

theorem Find_double {t : ExtendibleHashTable K V} (h : Inv t) (key : K) :
    t.doubleDirectory.incrementGlobalDepth.Find key = t.Find key := by
  obtain ⟨p, b, hp, hb, _⟩ := h.lookup key
  rw [Find_eq hp hb]
  apply Find_eq (t := t.doubleDirectory.incrementGlobalDepth) (p := p)
  · show (t.arr_ ++ t.arr_)[lowBits (t.hash key) (t.depth_ + 1)]? = some p
    rw [double_getElem? h (lowBits_lt _ _), lowBits_mod _ (Nat.le_succ _)]
    exact hp
  · exact hb

/-! ## The split -/

theorem length_bitPart (hash : K → Int) (l : Nat) (es : List (pair K V)) :
    (bitPart hash l false es).length + (bitPart hash l true es).length = es.length := by
  induction es with
  | nil => rfl
  | cons p ps ih =>
    cases h : Int.testBit (hash p.1) l <;> simp [bitPart, List.filter_cons, h] at ih ⊢ <;> omega

theorem mem_bitPart {hash : K → Int} {l : Nat} {bit : Bool} {es : List (pair K V)} {e : pair K V}
    (h : e ∈ bitPart hash l bit es) : e ∈ es ∧ Int.testBit (hash e.1) l = bit := by
  simpa [bitPart] using h

theorem nodup_bitPart (hash : K → Int) (l : Nat) (bit : Bool) {es : List (pair K V)}
    (h : (es.map Prod.fst).Nodup) : ((bitPart hash l bit es).map Prod.fst).Nodup :=
  h.sublist (List.Sublist.map _ (List.filter_sublist _))

theorem getElem?_split_heap {α : Type} (heap : List α) (p1 q : Nat) (a b : α)
    (hp1 : p1 < heap.length) :
    (heap.set p1 a ++ [b])[q]? =
      if q = p1 then some a else if q = heap.length then some b else heap[q]? := by
  by_cases h1 : q = p1
  · subst h1
    rw [if_pos rfl, List.getElem?_append_left (by simpa using hp1)]
    simp [List.getElem?_set, hp1]
  · rw [if_neg h1]
    by_cases h2 : q = heap.length
    · subst h2
      rw [if_pos rfl, List.getElem?_append_right (by simp)]
      simp
    · rw [if_neg h2]
      rcases Nat.lt_or_ge q heap.length with h3 | h3
      · rw [List.getElem?_append_left (by simpa using h3), List.getElem?_set_ne (Ne.symm h1)]
      · rw [List.getElem?_eq_none (by simp; omega), List.getElem?_eq_none h3]

theorem testBit_mod_add_high (x l : Nat) : Nat.testBit (x % 2 ^ l + 2 ^ l) l = true := by
  rw [Nat.add_comm, Nat.testBit_two_pow_add_eq,
    Nat.testBit_lt_two_pow (Nat.mod_lt _ (Nat.two_pow_pos l))]
  rfl

/-- The split of a bucket whose local depth is below the global depth
preserves the invariant. -/
theorem Inv.split {t : ExtendibleHashTable K V} (h : Inv t) {x p1 : Nat} {b : bucket K V}
    (hx : t.arr_[x]? = some p1) (hb : t.heap[p1]? = some b) (hl : b.depth_ < t.depth_)
    {arr1 : List Nat} (hr : Rewired t.arr_ arr1 x b.depth_ p1 t.heap.length) :
    Inv (t.afterSplit p1 b arr1) := by
  obtain ⟨hlen, harr⟩ := hr
  have hp1 : p1 < t.heap.length := lt_of_getElem?_eq_some hb
  have hxl : x < t.arr_.length := lt_of_getElem?_eq_some hx
  obtain ⟨b0, hb0, hok⟩ := h.slot x p1 hx
  rw [hb] at hb0
  cases hb0
  have hpos : 0 < 2 ^ b.depth_ := Nat.two_pow_pos _
  have hne : p1 ≠ t.heap.length := Nat.ne_of_lt hp1
  -- slots congruent to `x` held `p1` before
  have hold : ∀ j, j < t.arr_.length → (t.arr_[j]? = some p1 ↔ j % 2 ^ b.depth_ = x % 2 ^ b.depth_) :=
    hok.share
  have hpow : 2 ^ (b.depth_ + 1) ≤ 2 ^ t.depth_ := Nat.pow_le_pow_right (by decide) hl
  have hp2 : 2 ^ (b.depth_ + 1) = 2 * 2 ^ b.depth_ := by rw [pow_succ]; ring
  constructor
  · show arr1.length = 2 ^ t.depth_
    rw [hlen, h.len]
  · show t.num_buckets_ + 1 = _
    simp only [ExtendibleHashTable.afterSplit, List.length_append, List.length_set,
      List.length_singleton]
    have := h.nb
    push_cast
    omega
  · show t.num_keys_ = _
    simp only [ExtendibleHashTable.afterSplit, List.map_append, List.sum_append, List.map_cons,
      List.map_nil, List.sum_cons, List.sum_nil]
    have h1 := sum_map_set (fun b : bucket K V => b.arr_.length) t.heap p1 b
      { b with depth_ := b.depth_ + 1, arr_ := bitPart t.hash b.depth_ false b.arr_ } hb
    have h2 := length_bitPart t.hash b.depth_ b.arr_
    have h3 := h.nk
    beta_reduce at h1
    simp only [] at h1
    omega
  · intro p hp
    show p ∈ arr1
    simp only [ExtendibleHashTable.afterSplit, List.length_append, List.length_set,
      List.length_singleton] at hp
    by_cases hpp1 : p = p1
    · subst hpp1
      have hs : x % 2 ^ b.depth_ < t.arr_.length := by
        rw [h.len]; exact Nat.lt_of_lt_of_le (Nat.mod_lt _ hpos) (by omega)
      have := harr (x % 2 ^ b.depth_)
      rw [if_pos ⟨hs, Nat.mod_mod _ _⟩, if_pos (Nat.testBit_lt_two_pow (Nat.mod_lt _ hpos))] at this
      exact List.getElem?_mem this
    · by_cases hpp2 : p = t.heap.length
      · subst hpp2
        have hs : x % 2 ^ b.depth_ + 2 ^ b.depth_ < t.arr_.length := by
          have := Nat.mod_lt x hpos
          rw [h.len]; omega
        have := harr (x % 2 ^ b.depth_ + 2 ^ b.depth_)
        rw [if_pos ⟨hs, by rw [Nat.add_mod_right, Nat.mod_mod]⟩,
          if_neg (by rw [testBit_mod_add_high]; simp)] at this
        exact List.getElem?_mem this
      · have hmem := h.onto p (by omega)
        obtain ⟨i, hi⟩ := List.mem_iff_getElem?.mp hmem
        have hil := lt_of_getElem?_eq_some hi
        have hni : ¬ (i < t.arr_.length ∧ i % 2 ^ b.depth_ = x % 2 ^ b.depth_) := by
          intro hc
          have := (hold i hil).mpr hc.2
          rw [hi] at this
          exact hpp1 (Option.some.inj this)
        have := harr i
        rw [if_neg hni, hi] at this
        exact List.getElem?_mem this
  · intro i q hi
    show ∃ c, (t.heap.set p1 _ ++ [_])[q]? = some c ∧ _
    have hi0 : arr1[i]? = some q := hi
    have hil : i < t.arr_.length := by rw [← hlen]; exact lt_of_getElem?_eq_some hi0
    rw [getElem?_split_heap _ _ _ _ _ hp1]
    rw [harr i] at hi0
    by_cases hc : i % 2 ^ b.depth_ = x % 2 ^ b.depth_
    · rw [if_pos ⟨hil, hc⟩] at hi0
      -- a rewired slot: for each value of bit `l` of `i`
      have key : ∀ (bit : Bool) (p : Nat), Nat.testBit i b.depth_ = bit →
          p = (if bit = false then p1 else t.heap.length) →
          BucketOK (t.afterSplit p1 b arr1) i p
            { max_size_ := b.max_size_, depth_ := b.depth_ + 1,
              arr_ := bitPart t.hash b.depth_ bit b.arr_ } := by
        intro bit p hbit hp
        refine ⟨hl, ?_, ?_, nodup_bitPart _ _ _ hok.nodup, hok.size⟩
        · intro j hj
          have hjl : j < t.arr_.length := by rw [← hlen]; exact hj
          show arr1[j]? = some p ↔ j % 2 ^ (b.depth_ + 1) = i % 2 ^ (b.depth_ + 1)
          rw [harr j, mod_succ_eq_iff, hc, hbit]
          by_cases hjc : j % 2 ^ b.depth_ = x % 2 ^ b.depth_
          · rw [if_pos ⟨hjl, hjc⟩, hp]
            cases bit <;> cases hjb : Nat.testBit j b.depth_ <;> simp [hjc, hne, Ne.symm hne]
          · rw [if_neg (fun h => hjc h.2)]
            constructor
            · intro h1
              exfalso
              have h2 := hold j hjl
              cases bit
              · simp only [if_true] at hp
                rw [hp] at h1
                exact hjc (h2.mp h1)
              · simp only [Bool.true_eq_false, if_false] at hp
                rw [hp] at h1
                obtain ⟨c, hc1, _⟩ := h.slot j _ h1
                have := lt_of_getElem?_eq_some hc1
                omega
            · intro h1; exact absurd h1.1 hjc
        · intro e he
          obtain ⟨he1, he2⟩ := mem_bitPart he
          show lowBits (t.hash e.1) (b.depth_ + 1) = i % 2 ^ (b.depth_ + 1)
          rw [lowBits_succ, nat_mod_succ i, hbit, he2, hok.addr e he1, hc]
      cases hbit : Nat.testBit i b.depth_
      · rw [if_pos hbit] at hi0
        cases hi0
        rw [if_pos rfl]
        exact ⟨_, rfl, key false p1 hbit rfl⟩
      · rw [if_neg (by rw [hbit]; simp)] at hi0
        cases hi0
        rw [if_neg (Ne.symm hne), if_pos rfl]
        exact ⟨_, rfl, key true t.heap.length hbit rfl⟩
    · rw [if_neg (fun h => hc h.2)] at hi0
      obtain ⟨c, hc1, hcok⟩ := h.slot i q hi0
      have hq1 : q ≠ p1 := by
        intro he
        subst he
        exact hc ((hold i hil).mp hi0)
      have hq2 : q ≠ t.heap.length := Nat.ne_of_lt (lt_of_getElem?_eq_some hc1)
      rw [if_neg hq1, if_neg hq2]
      refine ⟨c, hc1, ⟨hcok.depth_le, ?_, hcok.addr, hcok.nodup, hcok.size⟩⟩
      intro j hj
      have hjl : j < t.arr_.length := by rw [← hlen]; exact hj
      show arr1[j]? = some q ↔ _
      rw [harr j, ← hcok.share j hjl]
      by_cases hjc : j % 2 ^ b.depth_ = x % 2 ^ b.depth_
      · rw [if_pos ⟨hjl, hjc⟩, (hold j hjl).mpr hjc]
        constructor
        · intro h1
          exfalso
          have := Option.some.inj h1
          split at this
          · exact hq1 this.symm
          · exact hq2 this.symm
        · intro h1
          exact absurd (Option.some.inj h1).symm hq1
      · rw [if_neg (fun h => hjc h.2)]

/-- The split leaves the answer of `Find` unchanged for every key. -/
theorem Find_split {t : ExtendibleHashTable K V} (h : Inv t) {x p1 : Nat} {b : bucket K V}
    (hx : t.arr_[x]? = some p1) (hb : t.heap[p1]? = some b) (hl : b.depth_ < t.depth_)
    {arr1 : List Nat} (hr : Rewired t.arr_ arr1 x b.depth_ p1 t.heap.length) (key : K) :
    (t.afterSplit p1 b arr1).Find key = t.Find key := by
  obtain ⟨hlen, harr⟩ := hr
  have hp1 : p1 < t.heap.length := lt_of_getElem?_eq_some hb
  obtain ⟨b0, hb0, hok⟩ := h.slot x p1 hx
  rw [hb] at hb0
  cases hb0
  obtain ⟨p, c, hp, hc, _⟩ := h.lookup key
  have hpl := lt_of_getElem?_eq_some hp
  rw [Find_eq hp hc]
  have hne : p1 ≠ t.heap.length := Nat.ne_of_lt hp1
  by_cases hcg : lowBits (t.hash key) t.depth_ % 2 ^ b.depth_ = x % 2 ^ b.depth_
  · have hpp : p = p1 := by
      have := (hok.share _ hpl).mpr hcg
      rw [hp] at this
      exact Option.some.inj this
    subst hpp
    rw [hb] at hc
    cases hc
    have hbit := testBit_lowBits (t.hash key) hl
    have hfil : ∀ bit, Int.testBit (t.hash key) b.depth_ = bit →
        findArr key (bitPart t.hash b.depth_ bit b.arr_) = findArr key b.arr_ := by
      intro bit hb1
      apply findArr_filter
      intro e _ he
      rw [he, hb1]
      simp
    cases hv : Int.testBit (t.hash key) b.depth_
    · rw [← hfil false hv]
      apply Find_eq (t := t.afterSplit p b arr1) (p := p)
        (b := { max_size_ := b.max_size_, depth_ := b.depth_ + 1, arr_ := bitPart t.hash b.depth_ false b.arr_ })
      · show arr1[lowBits (t.hash key) t.depth_]? = some p
        rw [harr, if_pos ⟨hpl, hcg⟩, if_pos (by rw [hbit, hv])]
      · show (t.heap.set p _ ++ [_])[p]? = _
        rw [getElem?_split_heap _ _ _ _ _ hp1, if_pos rfl]
    · rw [← hfil true hv]
      apply Find_eq (t := t.afterSplit p b arr1) (p := t.heap.length)
        (b := { max_size_ := b.max_size_, depth_ := b.depth_ + 1, arr_ := bitPart t.hash b.depth_ true b.arr_ })
      · show arr1[lowBits (t.hash key) t.depth_]? = some t.heap.length
        rw [harr, if_pos ⟨hpl, hcg⟩, if_neg (by rw [hbit, hv]; simp)]
      · show (t.heap.set p _ ++ [_])[t.heap.length]? = _
        rw [getElem?_split_heap _ _ _ _ _ hp1, if_neg (Ne.symm hne), if_pos rfl]
  · have hq1 : p ≠ p1 := by
      intro he
      subst he
      exact hcg ((hok.share _ hpl).mp hp)
    have hq2 : p ≠ t.heap.length := Nat.ne_of_lt (lt_of_getElem?_eq_some hc)
    apply Find_eq (t := t.afterSplit p1 b arr1) (p := p)
    · show arr1[lowBits (t.hash key) t.depth_]? = some p
      rw [harr, if_neg (fun h => hcg h.2), hp]
    · show (t.heap.set p1 _ ++ [_])[p]? = _
      rw [getElem?_split_heap _ _ _ _ _ hp1, if_neg hq1, if_neg hq2, hc]

/-! ## Writing one bucket -/

theorem set_eq_self {α : Type} : ∀ (l : List α) (p : Nat) (a : α), l[p]? = some a → l.set p a = l := by
  intro l
  induction l with
  | nil => intro p a h; simp at h
  | cons x xs ih =>
    intro p a h
    cases p with
    | zero => simp at h; simp [h]
    | succ n => simp at h; simp [ih n a h]

theorem store_self {t : ExtendibleHashTable K V} {p : Nat} {b : bucket K V}
    (hb : t.heap[p]? = some b) : t.store p b = t := by
  cases t
  simp only [ExtendibleHashTable.store] at hb ⊢
  rw [set_eq_self _ _ _ hb]

theorem Find_store_self {t : ExtendibleHashTable K V} {key : K} {p : Nat} {b : bucket K V}
    (hp : t.arr_[lowBits (t.hash key) t.depth_]? = some p) (hb : t.heap[p]? = some b)
    (c : bucket K V) (nk : Int) :
    (t.put p c nk).Find key =
      some (findArr key c.arr_) := by
  apply Find_eq (p := p)
  · exact hp
  · show (t.heap.set p c)[p]? = some c
    simp [List.getElem?_set, lt_of_getElem?_eq_some hb]

theorem Find_store_other {t : ExtendibleHashTable K V} (h : Inv t) {p : Nat} {b c : bucket K V}
    (hb : t.heap[p]? = some b) (nk : Int) (key : K)
    (hf : findArr key c.arr_ = findArr key b.arr_) :
    (t.put p c nk).Find key = t.Find key := by
  obtain ⟨q, d, hq, hd, _⟩ := h.lookup key
  rw [Find_eq hq hd]
  by_cases hqp : q = p
  · subst hqp
    rw [hb] at hd
    cases hd
    rw [Find_store_self hq hb, hf]
  · apply Find_eq (p := q)
    · exact hq
    · show (t.heap.set p c)[q]? = some d
      rw [List.getElem?_set_ne (Ne.symm hqp), hd]

/-! ## `Insert` -/

/-- The update branch: `Insert` on a present key. -/
theorem Insert_of_found {t : ExtendibleHashTable K V} {key : K} {p : Nat} {b : bucket K V}
    (hp : t.arr_[lowBits (t.hash key) t.depth_]? = some p) (hb : t.heap[p]? = some b)
    {v0 : V} (hf : findArr key b.arr_ = some v0) (val : V) :
    ∃ a, updateArr key val b.arr_ = some a ∧
      t.Insert key val = some (t.store p { b with arr_ := a }) := by
  have hu : updateArr key val b.arr_ ≠ none := by
    intro hc
    rw [updateArr_eq_none_iff, hf] at hc
    cases hc
  obtain ⟨a, ha⟩ := Option.ne_none_iff_exists'.mp hu
  refine ⟨a, ha, ?_⟩
  simp [ExtendibleHashTable.Insert, getBucket_indexOf, hp, ExtendibleHashTable.deref, hb,
    bucket.find, hf, bucket.insert, ha]

/-- The append branch: `Insert` of an absent key into a bucket that is not full. -/
theorem Insert_of_room {t : ExtendibleHashTable K V} {key : K} {p : Nat} {b : bucket K V}
    (hp : t.arr_[lowBits (t.hash key) t.depth_]? = some p) (hb : t.heap[p]? = some b)
    (hf : findArr key b.arr_ = none) (hfull : b.isFull = false) (val : V) :
    t.Insert key val =
      some { t.store p { b with arr_ := b.arr_ ++ [(key, val)] } with num_keys_ := t.num_keys_ + 1 } := by
  have hu : updateArr key val b.arr_ = none := (updateArr_eq_none_iff _ _ _).mpr hf
  simp [ExtendibleHashTable.Insert, getBucket_indexOf, hp, ExtendibleHashTable.deref, hb,
    bucket.find, hf, bucket.insert, hu, hfull]

/-- The overflow branch: `Insert` of an absent key into a full bucket is `handleFull`, the split of
the table in which the key has been appended and the directory doubled when
the bucket's depth equals the global depth. -/
theorem Insert_of_full {t : ExtendibleHashTable K V} {key : K} {p : Nat} {b : bucket K V}
    (hp : t.arr_[lowBits (t.hash key) t.depth_]? = some p) (hb : t.heap[p]? = some b)
    (hf : findArr key b.arr_ = none) (hfull : b.isFull = true) (val : V) :
    ∃ arr1,
      t.Insert key val = some (((t.appendKey p b key val).grow b.depth_).afterSplit p
        { b with arr_ := b.arr_ ++ [(key, val)] } arr1) ∧
      Rewired ((t.appendKey p b key val).grow b.depth_).arr_ arr1
        (lowBits (t.hash key) t.depth_) b.depth_ p t.heap.length := by
  have hu : updateArr key val b.arr_ = none := (updateArr_eq_none_iff _ _ _).mpr hf
  have hp1 : p < t.heap.length := lt_of_getElem?_eq_some hb
  have hI : t.Insert key val = t.handleFull (t.indexOf key) key val := by
    simp [ExtendibleHashTable.Insert, getBucket_indexOf, hp, ExtendibleHashTable.deref, hb,
      bucket.find, hf, hfull]
  rw [hI, handleFull_eq, getBucket_indexOf, hp, indexOf_eq]
  simp only [Option.some_bind, ExtendibleHashTable.deref, hb, bucket.insert, hu]
  by_cases hd : b.depth_ = t.depth_
  · have hg : (t.appendKey p b key val).grow b.depth_ =
        (t.appendKey p b key val).doubleDirectory.incrementGlobalDepth := if_pos hd
    rw [hg, if_pos hd]
    obtain ⟨arr1, h1, h2⟩ := splitBucket_eq
      (({ t with num_keys_ := t.num_keys_ + 1 } : ExtendibleHashTable K V).doubleDirectory.incrementGlobalDepth)
      (lowBits (t.hash key) t.depth_) p { b with arr_ := b.arr_ ++ [(key, val)] } hp1
    refine ⟨arr1, ?_, ?_⟩
    · rw [h1]
      simp [ExtendibleHashTable.afterSplit, ExtendibleHashTable.store, ExtendibleHashTable.appendKey,
        ExtendibleHashTable.doubleDirectory, ExtendibleHashTable.incrementGlobalDepth]
    · simpa [ExtendibleHashTable.store, ExtendibleHashTable.doubleDirectory, ExtendibleHashTable.appendKey,
        ExtendibleHashTable.incrementGlobalDepth] using h2
  · have hg : (t.appendKey p b key val).grow b.depth_ = t.appendKey p b key val := if_neg hd
    rw [hg, if_neg hd]
    obtain ⟨arr1, h1, h2⟩ := splitBucket_eq
      ({ t with num_keys_ := t.num_keys_ + 1 } : ExtendibleHashTable K V)
      (lowBits (t.hash key) t.depth_) p { b with arr_ := b.arr_ ++ [(key, val)] } hp1
    refine ⟨arr1, ?_, ?_⟩
    · rw [h1]
      simp [ExtendibleHashTable.afterSplit, ExtendibleHashTable.store, ExtendibleHashTable.appendKey]
    · simpa [ExtendibleHashTable.store, ExtendibleHashTable.appendKey] using h2

theorem findArr_append_new {key : K} (val : V) {es : List (pair K V)} (hf : findArr key es = none) :
    findArr key (es ++ [(key, val)]) = some val := by
  rw [findArr_append, hf]
  simp [findArr]

theorem findArr_append_other {key k1 : K} (val : V) (es : List (pair K V)) (hk : k1 ≠ key) :
    findArr k1 (es ++ [(key, val)]) = findArr k1 es := by
  rw [findArr_append]
  have : findArr k1 [(key, val)] = none := by simp [findArr, Ne.symm hk]
  cases findArr k1 es <;> simp [this]

theorem Inv.appendKey {t : ExtendibleHashTable K V} (h : Inv t) {key : K} {p : Nat} {b : bucket K V}
    (hp : t.arr_[lowBits (t.hash key) t.depth_]? = some p) (hb : t.heap[p]? = some b)
    (hf : findArr key b.arr_ = none) (val : V) : Inv (t.appendKey p b key val) := by
  obtain ⟨b0, hb0, hok⟩ := h.slot _ p hp
  rw [hb] at hb0
  cases hb0
  show Inv (t.put p { b with arr_ := b.arr_ ++ [(key, val)] } (t.num_keys_ + 1))
  apply h.store_bucket (c := { b with arr_ := b.arr_ ++ [(key, val)] }) hp hb rfl rfl
  · show ((b.arr_ ++ [(key, val)]).map Prod.fst).Nodup
    rw [List.map_append, List.nodup_append]
    refine ⟨hok.nodup, by simp, ?_⟩
    intro a ha1 ha2
    simp at ha2
    subst ha2
    exact (findArr_eq_none_iff _ _).mp hf ha1
  · intro e he
    rcases List.mem_append.mp he with h1 | h1
    · exact hok.addr e h1
    · simp at h1
      subst h1
      exact (lowBits_mod _ hok.depth_le).symm
  · simp only [List.length_append, List.length_singleton]
    push_cast
    omega

theorem Inv.grow {t : ExtendibleHashTable K V} (h : Inv t) (l : Nat) : Inv (t.grow l) := by
  unfold ExtendibleHashTable.grow
  split
  · exact h.double
  · exact h

theorem Find_grow {t : ExtendibleHashTable K V} (h : Inv t) (l : Nat) (key : K) :
    (t.grow l).Find key = t.Find key := by
  unfold ExtendibleHashTable.grow
  split
  · exact Find_double h key
  · rfl

theorem grow_heap (t : ExtendibleHashTable K V) (l : Nat) : (t.grow l).heap = t.heap := by
  unfold ExtendibleHashTable.grow
  split <;> rfl

theorem grow_hash (t : ExtendibleHashTable K V) (l : Nat) : (t.grow l).hash = t.hash := by
  unfold ExtendibleHashTable.grow
  split <;> rfl

theorem grow_bucket_size (t : ExtendibleHashTable K V) (l : Nat) :
    (t.grow l).bucket_size_ = t.bucket_size_ := by
  unfold ExtendibleHashTable.grow
  split <;> rfl

theorem grow_depth_lt (t : ExtendibleHashTable K V) {l : Nat} (hl : l ≤ t.depth_) :
    l < (t.grow l).depth_ := by
  unfold ExtendibleHashTable.grow
  split
  · rename_i h
    show l < t.depth_ + 1
    omega
  · rename_i h
    omega

theorem grow_getElem? (t : ExtendibleHashTable K V) (l : Nat) {x p : Nat}
    (hx : t.arr_[x]? = some p) : (t.grow l).arr_[x]? = some p := by
  unfold ExtendibleHashTable.grow
  split
  · show (t.arr_ ++ t.arr_)[x]? = some p
    rw [List.getElem?_append_left (lt_of_getElem?_eq_some hx)]
    exact hx
  · exact hx

/-- What `Insert` does on a table that satisfies the invariant: it returns,
the invariant holds again, the key is found with the new value and every
other key answers as before. -/
theorem Insert_spec {t : ExtendibleHashTable K V} (h : Inv t) (key : K) (val : V) :
    ∃ t1, t.Insert key val = some t1 ∧ Inv t1 ∧ t1.hash = t.hash ∧
      t1.bucket_size_ = t.bucket_size_ ∧ t1.Find key = some (some val) ∧
      ∀ k1, k1 ≠ key → t1.Find k1 = t.Find k1 := by
  obtain ⟨p, b, hp, hb, hok⟩ := h.lookup key
  cases hf : findArr key b.arr_ with
  | some v0 =>
    obtain ⟨a, ha, hI⟩ := Insert_of_found hp hb hf val
    obtain ⟨a1, a2, a3, a4, _⟩ := updateArr_spec ha
    refine ⟨_, hI, ?_, rfl, rfl, ?_, ?_⟩
    · show Inv (t.put p { b with arr_ := a } t.num_keys_)
      apply h.store_bucket (c := { b with arr_ := a }) hp hb rfl rfl
      · show (a.map Prod.fst).Nodup
        rw [a1]; exact hok.nodup
      · intro e he
        have hmem : e.1 ∈ b.arr_.map Prod.fst := by
          rw [← a1]; exact List.mem_map_of_mem _ he
        obtain ⟨e1, he1, he2⟩ := List.mem_map.mp hmem
        rw [← he2]
        exact hok.addr e1 he1
      · show t.num_keys_ + _ = t.num_keys_ + ((a.length : Nat) : Int)
        rw [a2]
    · show (t.put p { b with arr_ := a } t.num_keys_).Find key = _
      rw [Find_store_self hp hb]
      exact congrArg some a3
    · intro k1 hk
      show (t.put p { b with arr_ := a } t.num_keys_).Find k1 = _
      exact Find_store_other h hb t.num_keys_ k1 (a4 k1 hk)
  | none =>
    have hself : (t.appendKey p b key val).Find key = some (some val) := by
      show (t.put p { b with arr_ := b.arr_ ++ [(key, val)] } (t.num_keys_ + 1)).Find key = _
      rw [Find_store_self hp hb]
      exact congrArg some (findArr_append_new val hf)
    have hother : ∀ k1, k1 ≠ key → (t.appendKey p b key val).Find k1 = t.Find k1 := by
      intro k1 hk
      show (t.put p { b with arr_ := b.arr_ ++ [(key, val)] } (t.num_keys_ + 1)).Find k1 = _
      exact Find_store_other h hb _ k1 (findArr_append_other val b.arr_ hk)
    have hinv := h.appendKey hp hb hf val
    cases hfull : b.isFull with
    | false =>
      have hI := Insert_of_room hp hb hf hfull val
      exact ⟨_, hI, hinv, rfl, rfl, hself, hother⟩
    | true =>
      obtain ⟨arr1, hI, hr⟩ := Insert_of_full hp hb hf hfull val
      have hinv2 := hinv.grow b.depth_
      have hx2 := grow_getElem? (t.appendKey p b key val) b.depth_ (x := lowBits (t.hash key) t.depth_)
        (p := p) hp
      have hb2 : ((t.appendKey p b key val).grow b.depth_).heap[p]? =
          some { b with arr_ := b.arr_ ++ [(key, val)] } := by
        rw [grow_heap]
        show (t.heap.set p _)[p]? = _
        simp [List.getElem?_set, lt_of_getElem?_eq_some hb]
      have hl : b.depth_ < ((t.appendKey p b key val).grow b.depth_).depth_ :=
        grow_depth_lt (t.appendKey p b key val) hok.depth_le
      have hlen : ((t.appendKey p b key val).grow b.depth_).heap.length = t.heap.length := by
        rw [grow_heap]
        show (t.heap.set p _).length = _
        rw [List.length_set]
      rw [← hlen] at hr
      refine ⟨_, hI, hinv2.split hx2 hb2 hl hr, ?_, ?_, ?_, ?_⟩
      · show ((t.appendKey p b key val).grow b.depth_).hash = _
        rw [grow_hash]; rfl
      · show ((t.appendKey p b key val).grow b.depth_).bucket_size_ = _
        rw [grow_bucket_size]; rfl
      · rw [Find_split hinv2 hx2 hb2 hl hr, Find_grow hinv, hself]
      · intro k1 hk
        rw [Find_split hinv2 hx2 hb2 hl hr, Find_grow hinv, hother k1 hk]

/-! ## `Remove` -/

/-- Absent key: `Remove` of a key that its bucket does not hold returns false and leaves
the table as it is. -/
theorem Remove_of_absent {t : ExtendibleHashTable K V} {key : K} {p : Nat} {b : bucket K V}
    (hp : t.arr_[lowBits (t.hash key) t.depth_]? = some p) (hb : t.heap[p]? = some b)
    (hf : findArr key b.arr_ = none) : t.Remove key = some (t, false) := by
  have hu : removeArr key b.arr_ = none := (removeArr_eq_none_iff _ _).mpr hf
  simp [ExtendibleHashTable.Remove, getBucket_indexOf, hp, ExtendibleHashTable.deref, hb,
    bucket.remove, hu, store_self hb]

/-- Present key: `Remove` of a key that its bucket holds returns true, drops one pair of
that bucket and decrements `num_keys_`. -/
theorem Remove_of_present {t : ExtendibleHashTable K V} {key : K} {p : Nat} {b : bucket K V}
    (hp : t.arr_[lowBits (t.hash key) t.depth_]? = some p) (hb : t.heap[p]? = some b)
    {v0 : V} (hf : findArr key b.arr_ = some v0) :
    ∃ a, removeArr key b.arr_ = some a ∧
      t.Remove key = some (t.put p { b with arr_ := a } (t.num_keys_ - 1), true) := by
  have hu : removeArr key b.arr_ ≠ none := by
    intro hc
    rw [removeArr_eq_none_iff, hf] at hc
    cases hc
  obtain ⟨a, ha⟩ := Option.ne_none_iff_exists'.mp hu
  refine ⟨a, ha, ?_⟩
  simp [ExtendibleHashTable.Remove, getBucket_indexOf, hp, ExtendibleHashTable.deref, hb,
    bucket.remove, ha, ExtendibleHashTable.put]
  rfl

theorem map_depth_set {t : ExtendibleHashTable K V} {p : Nat} {b c : bucket K V}
    (hb : t.heap[p]? = some b) (hd : c.depth_ = b.depth_) :
    (t.heap.set p c).map (fun d => d.depth_) = t.heap.map (fun d => d.depth_) := by
  rw [List.map_set]
  apply set_eq_self
  rw [List.getElem?_map, hb, hd]
  rfl

/-- What `Remove` does on a table that satisfies the invariant. -/
theorem Remove_spec {t : ExtendibleHashTable K V} (h : Inv t) (key : K) :
    ∃ t1 r, t.Remove key = some (t1, r) ∧ Inv t1 ∧ t1.hash = t.hash ∧
      t1.bucket_size_ = t.bucket_size_ ∧
      (r = true ↔ ∃ v, t.Find key = some (some v)) ∧
      t1.num_keys_ = t.num_keys_ - (if r then 1 else 0) ∧
      t1.Find key = some none ∧
      (∀ k1, k1 ≠ key → t1.Find k1 = t.Find k1) ∧
      t1.depth_ = t.depth_ ∧ t1.arr_ = t.arr_ ∧ t1.num_buckets_ = t.num_buckets_ ∧
      t1.heap.map (fun d => d.depth_) = t.heap.map (fun d => d.depth_) := by
  obtain ⟨p, b, hp, hb, hok⟩ := h.lookup key
  have hF := Find_eq hp hb
  cases hf : findArr key b.arr_ with
  | none =>
    refine ⟨t, false, Remove_of_absent hp hb hf, h, rfl, rfl, ?_, by simp, ?_, fun _ _ => rfl,
      rfl, rfl, rfl, rfl⟩
    · rw [hF, hf]; simp
    · rw [hF, hf]
  | some v0 =>
    obtain ⟨a, ha, hR⟩ := Remove_of_present hp hb hf
    obtain ⟨a1, a2, a3, a4⟩ := removeArr_spec ha
    refine ⟨_, true, hR, ?_, rfl, rfl, ?_, by simp [ExtendibleHashTable.put], ?_, ?_, rfl, rfl, rfl, ?_⟩
    · apply h.store_bucket (c := { b with arr_ := a }) hp hb rfl rfl
      · exact hok.nodup.sublist (a2.map _)
      · intro e he
        exact hok.addr e (a2.subset he)
      · show t.num_keys_ - 1 + _ = t.num_keys_ + ((a.length : Nat) : Int)
        rw [← a1]
        push_cast
        omega
    · rw [hF, hf]; simp
    · rw [Find_store_self hp hb]
      exact congrArg some (a4 hok.nodup)
    · intro k1 hk
      exact Find_store_other h hb _ k1 (a3 k1 hk)
    · exact map_depth_set hb rfl

/-! ## Reachable tables -/

/-- Every reachable table satisfies the invariant and keeps the hash function
and the capacity it was created with. -/
theorem Reachable.inv {c : Int} {hash : K → Int} {t : ExtendibleHashTable K V}
    (hr : Reachable c hash t) : Inv t ∧ t.hash = hash ∧ t.bucket_size_ = c := by
  induction hr with
  | new => exact ⟨Inv_New c hash, rfl, rfl⟩
  | insert key val _ hI ih =>
    obtain ⟨t2, h1, h2, h3, h4, _⟩ := Insert_spec ih.1 key val
    rw [hI] at h1
    cases h1
    exact ⟨h2, h3.trans ih.2.1, h4.trans ih.2.2⟩
  | remove key r _ hR ih =>
    obtain ⟨t2, r2, h1, h2, h3, h4, _⟩ := Remove_spec ih.1 key
    rw [hR] at h1
    cases h1
    exact ⟨h2, h3.trans ih.2.1, h4.trans ih.2.2⟩

/-! ## Counting directory slots -/

theorem nat_count_congr (P Q : Nat → Prop) [DecidablePred P] [DecidablePred Q] :
    ∀ n, (∀ j, j < n → (P j ↔ Q j)) → Nat.count P n = Nat.count Q n := by
  intro n
  induction n with
  | zero => intro _; simp
  | succ n ih =>
    intro h
    rw [Nat.count_succ, Nat.count_succ, ih (fun j hj => h j (Nat.lt_succ_of_lt hj))]
    have := h n (Nat.lt_succ_self n)
    by_cases hp : P n
    · rw [if_pos hp, if_pos (this.mp hp)]
    · rw [if_neg hp, if_neg (fun hq => hp (this.mpr hq))]

theorem count_eq_nat_count (p : Nat) (arr : List Nat) :
    arr.count p = Nat.count (fun j => arr[j]? = some p) arr.length := by
  induction arr using List.reverseRecOn with
  | nil => simp
  | append_singleton xs a ih =>
    rw [List.count_append, List.length_append, List.length_singleton, Nat.count_succ, ih]
    have h1 : Nat.count (fun j => (xs ++ [a])[j]? = some p) xs.length =
        Nat.count (fun j => xs[j]? = some p) xs.length := by
      apply nat_count_congr
      intro j hj
      rw [List.getElem?_append_left hj]
    rw [h1]
    congr 1
    by_cases ha : a = p
    · subst ha
      simp
    · have : ¬ (xs ++ [a])[xs.length]? = some p := by
        simp [ha]
      rw [if_neg this]
      simp [List.count_singleton, ha]

theorem nat_count_mod (l g r : Nat) (hl : l ≤ g) :
    Nat.count (fun j => j % 2 ^ l = r % 2 ^ l) (2 ^ g) = 2 ^ (g - l) := by
  have hpos : 0 < 2 ^ l := Nat.two_pow_pos l
  have h := Nat.count_modEq_card (2 ^ g) hpos r
  have hd : 2 ^ l ∣ 2 ^ g := pow_dvd_pow 2 hl
  have h0 : 2 ^ g % 2 ^ l = 0 := Nat.mod_eq_zero_of_dvd hd
  rw [h0, if_neg (Nat.not_lt_zero _), Nat.add_zero, Nat.pow_div hl (by decide)] at h
  rw [← h]
  apply nat_count_congr
  intro j _
  exact Iff.rfl

/-- A bucket of local depth `l` is referenced by `2^(g-l)` slots. -/
theorem Inv.count_slots {t : ExtendibleHashTable K V} (h : Inv t) {i p : Nat} {b : bucket K V}
    (hi : t.arr_[i]? = some p) (hb : t.heap[p]? = some b) :
    t.arr_.count p = 2 ^ (t.depth_ - b.depth_) := by
  obtain ⟨b0, hb0, hok⟩ := h.slot i p hi
  rw [hb] at hb0
  cases hb0
  rw [count_eq_nat_count, h.len, ← nat_count_mod b.depth_ t.depth_ i hok.depth_le]
  apply nat_count_congr
  intro j hj
  exact hok.share j (by rw [h.len]; exact hj)

/-! ## The keys of the table -/

theorem Inv.mem_arr_iff {t : ExtendibleHashTable K V} (h : Inv t) (p : Nat) :
    p ∈ t.arr_ ↔ p < t.heap.length := by
  constructor
  · intro hp
    obtain ⟨i, hi⟩ := List.mem_iff_getElem?.mp hp
    obtain ⟨b, hb, _⟩ := h.slot i p hi
    exact lt_of_getElem?_eq_some hb
  · exact h.onto p

theorem Inv.buckets_perm {t : ExtendibleHashTable K V} (h : Inv t) :
    t.buckets.Perm (List.range t.heap.length) := by
  apply (List.perm_ext_iff_of_nodup (List.nodup_dedup _) (List.nodup_range _)).mpr
  intro p
  show p ∈ t.arr_.dedup ↔ _
  rw [List.mem_dedup, h.mem_arr_iff, List.mem_range]

theorem map_range_entries (t : ExtendibleHashTable K V) :
    (List.range t.heap.length).map (fun p => (t.entriesAt p).length) =
      t.heap.map (fun b => b.arr_.length) := by
  apply List.ext_getElem?
  intro i
  rw [List.getElem?_map, List.getElem?_map]
  rcases Nat.lt_or_ge i t.heap.length with hi | hi
  · rw [List.getElem?_range hi, List.getElem?_eq_getElem hi]
    simp [ExtendibleHashTable.entriesAt, List.getElem?_eq_getElem hi]
  · rw [List.getElem?_eq_none (by simpa using hi), List.getElem?_eq_none hi]
    rfl

theorem Inv.num_keys_eq_total {t : ExtendibleHashTable K V} (h : Inv t) :
    t.num_keys_ = (t.totalEntries : Int) := by
  rw [h.nk, ← map_range_entries]
  congr 1
  exact ((h.buckets_perm.map _).sum_eq).symm

theorem length_storedKeys (t : ExtendibleHashTable K V) :
    t.storedKeys.length = t.totalEntries := by
  unfold ExtendibleHashTable.storedKeys ExtendibleHashTable.totalEntries
  rw [List.length_flatMap]
  congr 1
  apply List.map_congr_left
  intro p _
  simp [ExtendibleHashTable.keysAt]

theorem mem_keysAt {t : ExtendibleHashTable K V} {p : Nat} {key : K} (hk : key ∈ t.keysAt p) :
    ∃ b e, t.heap[p]? = some b ∧ e ∈ b.arr_ ∧ e.1 = key := by
  unfold ExtendibleHashTable.keysAt ExtendibleHashTable.entriesAt at hk
  cases hb : t.heap[p]? with
  | none => rw [hb] at hk; simp at hk
  | some b =>
    rw [hb] at hk
    obtain ⟨e, he, hek⟩ := List.mem_map.mp hk
    exact ⟨b, e, rfl, he, hek⟩

theorem keysAt_eq {t : ExtendibleHashTable K V} {p : Nat} {b : bucket K V}
    (hb : t.heap[p]? = some b) : t.keysAt p = b.arr_.map Prod.fst := by
  simp [ExtendibleHashTable.keysAt, ExtendibleHashTable.entriesAt, hb]

/-- A key held by a bucket of the directory is held by the bucket that the
key is addressed to. -/
theorem Inv.keysAt_slot {t : ExtendibleHashTable K V} (h : Inv t) {p : Nat} {key : K}
    (hp : p ∈ t.arr_) (hk : key ∈ t.keysAt p) :
    t.arr_[lowBits (t.hash key) t.depth_]? = some p := by
  obtain ⟨i, hi⟩ := List.mem_iff_getElem?.mp hp
  obtain ⟨b, e, hb, he, hek⟩ := mem_keysAt hk
  rw [← hek]
  exact h.slot_of_key hi hb he

theorem Inv.nodup_keysAt {t : ExtendibleHashTable K V} (h : Inv t) {p : Nat} (hp : p ∈ t.arr_) :
    (t.keysAt p).Nodup := by
  obtain ⟨i, hi⟩ := List.mem_iff_getElem?.mp hp
  obtain ⟨b, hb, hok⟩ := h.slot i p hi
  rw [keysAt_eq hb]
  exact hok.nodup

theorem Inv.nodup_storedKeys {t : ExtendibleHashTable K V} (h : Inv t) : t.storedKeys.Nodup := by
  unfold ExtendibleHashTable.storedKeys
  rw [List.nodup_flatMap]
  constructor
  · intro p hp
    exact h.nodup_keysAt (List.mem_dedup.mp hp)
  · apply (List.nodup_dedup _).pairwise_of_forall_ne
    intro p hp q hq hpq
    show List.Disjoint (t.keysAt p) (t.keysAt q)
    intro key h1 h2
    have e1 := h.keysAt_slot (List.mem_dedup.mp hp) h1
    have e2 := h.keysAt_slot (List.mem_dedup.mp hq) h2
    rw [e1] at e2
    exact hpq (Option.some.inj e2)

theorem Inv.mem_storedKeys_iff {t : ExtendibleHashTable K V} (h : Inv t) (key : K) :
    key ∈ t.storedKeys ↔ ∃ v, t.Find key = some (some v) := by
  obtain ⟨p, b, hp, hb, hok⟩ := h.lookup key
  rw [Find_eq hp hb]
  unfold ExtendibleHashTable.storedKeys
  rw [List.mem_flatMap]
  constructor
  · rintro ⟨q, hq, hk⟩
    have e1 := h.keysAt_slot (List.mem_dedup.mp hq) hk
    rw [hp] at e1
    cases e1
    rw [keysAt_eq hb, ← findArr_isSome_iff] at hk
    obtain ⟨v, hv⟩ := Option.isSome_iff_exists.mp hk
    exact ⟨v, congrArg some hv⟩
  · rintro ⟨v, hv⟩
    refine ⟨p, List.mem_dedup.mpr (List.getElem?_mem hp), ?_⟩
    rw [keysAt_eq hb, ← findArr_isSome_iff, Option.some.inj hv]
    rfl

/-! ## The example tables are reachable -/

theorem exOne_reachable : Reachable 1 idHash exOne :=
  Reachable.insert 1 10 Reachable.new rfl

theorem exTwo_reachable : Reachable 1 idHash exTwo :=
  Reachable.insert 3 30 exOne_reachable rfl

theorem exThree_reachable : Reachable 1 idHash exThree :=
  Reachable.insert 2 20 exTwo_reachable rfl

/-! ## The claims -/

/-- C1 (round trip). For every capacity `c`, every hash function and every
table reachable from `New c hash` by `Insert` and `Remove`, `Insert key val`
returns a table on which `Find key` reports found with the value `val`,
whichever branch `Insert` takes. -/
theorem c1_insert_then_find (c : Int) (hash : K → Int) (t : ExtendibleHashTable K V)
    (hr : Reachable c hash t) (key : K) (val : V) :
    ∃ t1, t.Insert key val = some t1 ∧ t1.Find key = some (some val) := by
  obtain ⟨t1, h1, _, _, _, h2, _⟩ := Insert_spec hr.inv.1 key val
  exact ⟨t1, h1, h2⟩

theorem c1_insert_then_find_witness :
    Reachable 1 idHash exOne ∧
      ∃ t1, exOne.Insert 3 30 = some t1 ∧ t1.Find 3 = some (some 30) :=
  ⟨Reachable.insert 1 10 Reachable.new rfl,
   c1_insert_then_find 1 idHash exOne (Reachable.insert 1 10 Reachable.new rfl) 3 30⟩

/-- C2 (Insert preserves every other key). On every reachable table,
`Insert key val` returns a table on which `Find k1` gives, for every key `k1`
other than `key`, the same answer (found or not, and the value) as before,
also when the directory doubles and the bucket of `k1` is split. -/
theorem c2_insert_keeps_other_keys (c : Int) (hash : K → Int) (t : ExtendibleHashTable K V)
    (hr : Reachable c hash t) (key : K) (val : V) :
    ∃ t1, t.Insert key val = some t1 ∧ ∀ k1, k1 ≠ key → t1.Find k1 = t.Find k1 := by
  obtain ⟨t1, h1, _, _, _, _, h2⟩ := Insert_spec hr.inv.1 key val
  exact ⟨t1, h1, h2⟩

theorem c2_insert_keeps_other_keys_witness :
    Reachable 1 idHash exOne ∧
      ∃ t1, exOne.Insert 3 30 = some t1 ∧ ∀ k1, k1 ≠ 3 → t1.Find k1 = exOne.Find k1 :=
  ⟨Reachable.insert 1 10 Reachable.new rfl,
   c2_insert_keeps_other_keys 1 idHash exOne (Reachable.insert 1 10 Reachable.new rfl) 3 30⟩

/-- C3 (update, not insert). On every reachable table on which `Find key`
reports found, `Insert key val` returns a table with the same number of keys,
global depth, number of buckets and number of directory slots; the directory
and every bucket's capacity, local depth and sequence of keys are unchanged
(no split, whatever the fill of the bucket), every pair with another key is
unchanged, `Find key` now gives `val` and every other key answers as before. -/
theorem c3_update_in_place (c : Int) (hash : K → Int) (t : ExtendibleHashTable K V)
    (hr : Reachable c hash t) (key : K) (val v0 : V) (hfound : t.Find key = some (some v0)) :
    ∃ t1, t.Insert key val = some t1 ∧
      t1.GetNumberOfKeys = t.GetNumberOfKeys ∧
      t1.GetGlobalDepth = t.GetGlobalDepth ∧
      t1.GetNumberOfBuckets = t.GetNumberOfBuckets ∧
      t1.GetNumberOfDirectories = t.GetNumberOfDirectories ∧
      t1.arr_ = t.arr_ ∧
      t1.heap.map (fun b => (b.max_size_, b.depth_, b.arr_.map Prod.fst)) =
        t.heap.map (fun b => (b.max_size_, b.depth_, b.arr_.map Prod.fst)) ∧
      t1.heap.map (fun b => b.arr_.filter (fun e => !decide (e.1 = key))) =
        t.heap.map (fun b => b.arr_.filter (fun e => !decide (e.1 = key))) ∧
      t1.Find key = some (some val) ∧
      ∀ k1, k1 ≠ key → t1.Find k1 = t.Find k1 := by
  have h := hr.inv.1
  obtain ⟨p, b, hp, hb, hok⟩ := h.lookup key
  rw [Find_eq hp hb] at hfound
  have hf : findArr key b.arr_ = some v0 := Option.some.inj hfound
  obtain ⟨a, ha, hI⟩ := Insert_of_found hp hb hf val
  obtain ⟨a1, a2, a3, a4, a5⟩ := updateArr_spec ha
  refine ⟨_, hI, rfl, rfl, rfl, rfl, rfl, ?_, ?_, ?_, ?_⟩
  · show (t.heap.set p _).map _ = _
    rw [List.map_set]
    apply set_eq_self
    rw [List.getElem?_map, hb]
    show some (b.max_size_, b.depth_, b.arr_.map Prod.fst) = some (b.max_size_, b.depth_, a.map Prod.fst)
    rw [a1]
  · show (t.heap.set p _).map _ = _
    rw [List.map_set]
    apply set_eq_self
    rw [List.getElem?_map, hb]
    show some (b.arr_.filter _) = some (a.filter _)
    rw [a5]
  · show (t.put p { b with arr_ := a } t.num_keys_).Find key = _
    rw [Find_store_self hp hb]
    exact congrArg some a3
  · intro k1 hk
    show (t.put p { b with arr_ := a } t.num_keys_).Find k1 = _
    exact Find_store_other h hb t.num_keys_ k1 (a4 k1 hk)

theorem c3_update_in_place_witness :
    Reachable 1 idHash exTwo ∧ exTwo.Find 3 = some (some 30) ∧
      ∃ t1, exTwo.Insert 3 31 = some t1 ∧
        t1.GetNumberOfKeys = exTwo.GetNumberOfKeys ∧
        t1.GetGlobalDepth = exTwo.GetGlobalDepth ∧
        t1.GetNumberOfBuckets = exTwo.GetNumberOfBuckets ∧
        t1.GetNumberOfDirectories = exTwo.GetNumberOfDirectories ∧
        t1.arr_ = exTwo.arr_ ∧
        t1.heap.map (fun b => (b.max_size_, b.depth_, b.arr_.map Prod.fst)) =
          exTwo.heap.map (fun b => (b.max_size_, b.depth_, b.arr_.map Prod.fst)) ∧
        t1.heap.map (fun b => b.arr_.filter (fun e => !decide (e.1 = 3))) =
          exTwo.heap.map (fun b => b.arr_.filter (fun e => !decide (e.1 = 3))) ∧
        t1.Find 3 = some (some 31) ∧
        ∀ k1, k1 ≠ 3 → t1.Find k1 = exTwo.Find k1 :=
  ⟨Reachable.insert 3 30 (Reachable.insert 1 10 Reachable.new rfl) rfl, rfl,
   c3_update_in_place 1 idHash exTwo
     (Reachable.insert 3 30 (Reachable.insert 1 10 Reachable.new rfl) rfl) 3 31 30 rfl⟩

/-- C4 (Remove of a present key). On every reachable table `Remove key`
returns; its flag is true exactly when `Find key` reported found before; and
when the flag is true the number of keys has decreased by one and `Find key`
on the resulting table reports not found. -/
theorem c4_remove_present (c : Int) (hash : K → Int) (t : ExtendibleHashTable K V)
    (hr : Reachable c hash t) (key : K) :
    ∃ t1 r, t.Remove key = some (t1, r) ∧
      (r = true ↔ ∃ v, t.Find key = some (some v)) ∧
      (r = true → t1.GetNumberOfKeys = t.GetNumberOfKeys - 1 ∧ t1.Find key = some none) := by
  obtain ⟨t1, r, h1, _, _, _, h2, h3, h4, _⟩ := Remove_spec hr.inv.1 key
  refine ⟨t1, r, h1, h2, ?_⟩
  intro hrt
  refine ⟨?_, h4⟩
  show t1.num_keys_ = t.num_keys_ - 1
  rw [h3, hrt]
  rfl

theorem c4_remove_present_witness :
    Reachable 1 idHash exTwo ∧
      ∃ t1 r, exTwo.Remove 1 = some (t1, r) ∧
        (r = true ↔ ∃ v, exTwo.Find 1 = some (some v)) ∧
        (r = true → t1.GetNumberOfKeys = exTwo.GetNumberOfKeys - 1 ∧ t1.Find 1 = some none) :=
  ⟨Reachable.insert 3 30 (Reachable.insert 1 10 Reachable.new rfl) rfl,
   c4_remove_present 1 idHash exTwo
     (Reachable.insert 3 30 (Reachable.insert 1 10 Reachable.new rfl) rfl) 1⟩

/-- C5 (Remove of an absent key). On every reachable table on which
`Find key` reports not found, `Remove key` returns false and the table is
unchanged in every component. -/
theorem c5_remove_absent (c : Int) (hash : K → Int) (t : ExtendibleHashTable K V)
    (hr : Reachable c hash t) (key : K) (habsent : t.Find key = some none) :
    t.Remove key = some (t, false) := by
  obtain ⟨p, b, hp, hb, _⟩ := hr.inv.1.lookup key
  rw [Find_eq hp hb] at habsent
  exact Remove_of_absent hp hb (Option.some.inj habsent)

theorem c5_remove_absent_witness :
    Reachable 3 idHash (New 3 idHash : ExtendibleHashTable Nat Nat) ∧
      (New 3 idHash : ExtendibleHashTable Nat Nat).Find 7 = some none ∧
      (New 3 idHash : ExtendibleHashTable Nat Nat).Remove 7 = some (New 3 idHash, false) :=
  ⟨Reachable.new, rfl, c5_remove_absent 3 idHash (New 3 idHash) Reachable.new 7 rfl⟩

/-- C6 (Remove never shrinks, merges or disturbs other keys). On every
reachable table `Remove key` returns a table with the same global depth,
number of directory slots and number of buckets, the same directory, the same
local depth in every bucket, and the same answer of `Find` for every other
key. -/
theorem c6_remove_frame (c : Int) (hash : K → Int) (t : ExtendibleHashTable K V)
    (hr : Reachable c hash t) (key : K) :
    ∃ t1 r, t.Remove key = some (t1, r) ∧
      t1.GetGlobalDepth = t.GetGlobalDepth ∧
      t1.GetNumberOfDirectories = t.GetNumberOfDirectories ∧
      t1.GetNumberOfBuckets = t.GetNumberOfBuckets ∧
      t1.arr_ = t.arr_ ∧
      t1.heap.map (fun b => b.depth_) = t.heap.map (fun b => b.depth_) ∧
      ∀ k1, k1 ≠ key → t1.Find k1 = t.Find k1 := by
  obtain ⟨t1, r, h1, _, _, _, _, _, _, h5, h6, h7, h8, h9⟩ := Remove_spec hr.inv.1 key
  refine ⟨t1, r, h1, h6, ?_, h8, h7, h9, h5⟩
  show (t1.arr_.length : Int) = (t.arr_.length : Int)
  rw [h7]

theorem c6_remove_frame_witness :
    Reachable 1 idHash exThree ∧
      ∃ t1 r, exThree.Remove 3 = some (t1, r) ∧
        t1.GetGlobalDepth = exThree.GetGlobalDepth ∧
        t1.GetNumberOfDirectories = exThree.GetNumberOfDirectories ∧
        t1.GetNumberOfBuckets = exThree.GetNumberOfBuckets ∧
        t1.arr_ = exThree.arr_ ∧
        t1.heap.map (fun b => b.depth_) = exThree.heap.map (fun b => b.depth_) ∧
        ∀ k1, k1 ≠ 3 → t1.Find k1 = exThree.Find k1 :=
  ⟨Reachable.insert 2 20 (Reachable.insert 3 30 (Reachable.insert 1 10 Reachable.new rfl) rfl) rfl,
   c6_remove_frame 1 idHash exThree
     (Reachable.insert 2 20 (Reachable.insert 3 30 (Reachable.insert 1 10 Reachable.new rfl) rfl) rfl)
     3⟩

/-- C7 (count accuracy). On every reachable table `GetNumberOfKeys` is the
length of the duplicate-free list of the keys held by the distinct buckets of
the directory; a key is in that list exactly when `Find` reports it found;
and `GetNumberOfKeys` is the number of entries summed over the distinct
buckets of the directory. -/
theorem c7_count_accuracy (c : Int) (hash : K → Int) (t : ExtendibleHashTable K V)
    (hr : Reachable c hash t) :
    t.GetNumberOfKeys = (t.storedKeys.length : Int) ∧ t.storedKeys.Nodup ∧
      (∀ key, key ∈ t.storedKeys ↔ ∃ v, t.Find key = some (some v)) ∧
      t.GetNumberOfKeys = (t.totalEntries : Int) := by
  have h := hr.inv.1
  refine ⟨?_, h.nodup_storedKeys, h.mem_storedKeys_iff, h.num_keys_eq_total⟩
  rw [length_storedKeys]
  exact h.num_keys_eq_total

theorem c7_count_accuracy_witness :
    Reachable 1 idHash exThree ∧
      (exThree.GetNumberOfKeys = (exThree.storedKeys.length : Int) ∧ exThree.storedKeys.Nodup ∧
        (∀ key, key ∈ exThree.storedKeys ↔ ∃ v, exThree.Find key = some (some v)) ∧
        exThree.GetNumberOfKeys = (exThree.totalEntries : Int)) :=
  ⟨Reachable.insert 2 20 (Reachable.insert 3 30 (Reachable.insert 1 10 Reachable.new rfl) rfl) rfl,
   c7_count_accuracy 1 idHash exThree
     (Reachable.insert 2 20 (Reachable.insert 3 30 (Reachable.insert 1 10 Reachable.new rfl) rfl) rfl)⟩

/-- C8 (directory sizing). On every reachable table the number of directory
slots is two to the power of the global depth. -/
theorem c8_directory_sizing (c : Int) (hash : K → Int) (t : ExtendibleHashTable K V)
    (hr : Reachable c hash t) :
    t.GetNumberOfDirectories = 2 ^ t.GetGlobalDepth := by
  show (t.arr_.length : Int) = 2 ^ t.depth_
  rw [hr.inv.1.len]
  push_cast
  rfl

theorem c8_directory_sizing_witness :
    Reachable 1 idHash exTwo ∧ exTwo.GetNumberOfDirectories = 2 ^ exTwo.GetGlobalDepth :=
  ⟨Reachable.insert 3 30 (Reachable.insert 1 10 Reachable.new rfl) rfl,
   c8_directory_sizing 1 idHash exTwo
     (Reachable.insert 3 30 (Reachable.insert 1 10 Reachable.new rfl) rfl)⟩

/-- C9 (depth and reference consistency). On every reachable table every
pointer `p` of the directory addresses a bucket whose local depth is at most
the global depth and which is referenced by exactly
`2 ^ (global depth - local depth)` directory slots. -/
theorem c9_depth_reference (c : Int) (hash : K → Int) (t : ExtendibleHashTable K V)
    (hr : Reachable c hash t) (p : Nat) (hp : p ∈ t.arr_) :
    ∃ b, t.deref p = some b ∧ b.getDepth ≤ t.GetGlobalDepth ∧
      t.arr_.count p = 2 ^ (t.GetGlobalDepth - b.getDepth) := by
  have h := hr.inv.1
  obtain ⟨i, hi⟩ := List.mem_iff_getElem?.mp hp
  obtain ⟨b, hb, hok⟩ := h.slot i p hi
  exact ⟨b, hb, hok.depth_le, h.count_slots hi hb⟩

theorem c9_depth_reference_witness :
    Reachable 1 idHash exThree ∧ 1 ∈ exThree.arr_ ∧
      ∃ b, exThree.deref 1 = some b ∧ b.getDepth ≤ exThree.GetGlobalDepth ∧
        exThree.arr_.count 1 = 2 ^ (exThree.GetGlobalDepth - b.getDepth) :=
  ⟨Reachable.insert 2 20 (Reachable.insert 3 30 (Reachable.insert 1 10 Reachable.new rfl) rfl) rfl,
   by decide,
   c9_depth_reference 1 idHash exThree
     (Reachable.insert 2 20 (Reachable.insert 3 30 (Reachable.insert 1 10 Reachable.new rfl) rfl) rfl)
     1 (by decide)⟩

/-- C10 (key uniqueness). On every reachable table no bucket of the directory
holds a key twice, and no key is held by two distinct buckets of the
directory. -/
theorem c10_key_uniqueness (c : Int) (hash : K → Int) (t : ExtendibleHashTable K V)
    (hr : Reachable c hash t) :
    (∀ p, p ∈ t.arr_ → (t.keysAt p).Nodup) ∧
      ∀ p q, p ∈ t.arr_ → q ∈ t.arr_ → p ≠ q → ∀ key, key ∈ t.keysAt p → key ∉ t.keysAt q := by
  have h := hr.inv.1
  refine ⟨fun p hp => h.nodup_keysAt hp, ?_⟩
  intro p q hp hq hpq key h1 h2
  have e1 := h.keysAt_slot hp h1
  have e2 := h.keysAt_slot hq h2
  rw [e1] at e2
  exact hpq (Option.some.inj e2)

theorem c10_key_uniqueness_witness :
    Reachable 1 idHash exThree ∧
      ((∀ p, p ∈ exThree.arr_ → (exThree.keysAt p).Nodup) ∧
        ∀ p q, p ∈ exThree.arr_ → q ∈ exThree.arr_ → p ≠ q →
          ∀ key, key ∈ exThree.keysAt p → key ∉ exThree.keysAt q) :=
  ⟨Reachable.insert 2 20 (Reachable.insert 3 30 (Reachable.insert 1 10 Reachable.new rfl) rfl) rfl,
   c10_key_uniqueness 1 idHash exThree
     (Reachable.insert 2 20 (Reachable.insert 3 30 (Reachable.insert 1 10 Reachable.new rfl) rfl) rfl)⟩

theorem exEvenOne_reachable : Reachable 1 idHash exEvenOne :=
  Reachable.insert 2 20 Reachable.new rfl

theorem exEvenTwo_reachable : Reachable 1 idHash exEvenTwo :=
  Reachable.insert 4 40 exEvenOne_reachable rfl

/-! ## The indices written by the rewiring loop -/

/-- With enough iterations allowed, the loop started at a natural number `n`
with step `2^l` visits, each once, the indices `j` with `n ≤ j < len` that are
congruent to `n` modulo `2^l`. -/
theorem rewireVisits_spec (l len : Nat) : ∀ (fuel n : Nat), len ≤ n + fuel →
    (rewireVisits ((1 : Int) <<< (l : Int)) fuel (n : Int) len).Nodup ∧
    ∀ z : Int, z ∈ rewireVisits ((1 : Int) <<< (l : Int)) fuel (n : Int) len ↔
      ∃ j : Nat, z = (j : Int) ∧ n ≤ j ∧ j < len ∧ j % 2 ^ l = n % 2 ^ l := by
  intro fuel
  induction fuel with
  | zero =>
    intro n hlen
    refine ⟨List.nodup_nil, ?_⟩
    intro z
    simp only [rewireVisits, List.not_mem_nil, false_iff]
    rintro ⟨j, _, h1, h2, _⟩
    omega
  | succ fuel ih =>
    intro n hlen
    have hpos : 0 < 2 ^ l := Nat.two_pow_pos l
    have hstep : (n : Int) + (1 : Int) <<< (l : Int) = ((n + 2 ^ l : Nat) : Int) := by
      rw [Int.one_shiftLeft]; push_cast; rfl
    by_cases hn : n < len
    · have hn1 : (n : Int) < (len : Int) := by omega
      obtain ⟨ih1, ih2⟩ := ih (n + 2 ^ l) (by omega)
      rw [rewireVisits, if_pos hn1, hstep]
      constructor
      · rw [List.nodup_cons]
        refine ⟨?_, ih1⟩
        intro hmem
        obtain ⟨j, hj, h1, _, _⟩ := (ih2 _).mp hmem
        omega
      · intro z
        rw [List.mem_cons, ih2 z]
        constructor
        · rintro (h | ⟨j, hj, h1, h2, h3⟩)
          · exact ⟨n, h, Nat.le_refl _, hn, rfl⟩
          · exact ⟨j, hj, by omega, h2, by rw [h3, Nat.add_mod_right]⟩
        · rintro ⟨j, hj, h1, h2, h3⟩
          by_cases hjn : j = n
          · left; rw [hj, hjn]
          · right
            exact ⟨j, hj, mod_step (by omega) h3, h2, by rw [h3, Nat.add_mod_right]⟩
    · have hn1 : ¬ ((n : Int) < (len : Int)) := by omega
      rw [rewireVisits, if_neg hn1]
      refine ⟨List.nodup_nil, ?_⟩
      intro z
      simp only [List.not_mem_nil, false_iff]
      rintro ⟨j, _, h1, h2, _⟩
      omega

/-- The indices written by the rewiring loop of `handleFull`, started at
`index & (high_bit - 1)` with the directory length as bound: each index once,
and exactly the indices below `len` congruent to `index` modulo `2^l`. -/
theorem rewireVisits_result (l len x : Nat) :
    (rewireVisits ((1 : Int) <<< (l : Int)) len
        (Int.land ((1 : Int) <<< (l : Int) - 1) (x : Int)) len).Nodup ∧
    ∀ z : Int, z ∈ rewireVisits ((1 : Int) <<< (l : Int)) len
        (Int.land ((1 : Int) <<< (l : Int) - 1) (x : Int)) len ↔
      ∃ j : Nat, z = (j : Int) ∧ j < len ∧ j % 2 ^ l = x % 2 ^ l := by
  rw [land_mask_ofNat]
  obtain ⟨h1, h2⟩ := rewireVisits_spec l len len (x % 2 ^ l) (by omega)
  refine ⟨h1, ?_⟩
  intro z
  rw [h2 z]
  constructor
  · rintro ⟨j, hj, _, h4, h5⟩
    exact ⟨j, hj, h4, by rw [h5, Nat.mod_mod]⟩
  · rintro ⟨j, hj, h4, h5⟩
    have hle : j % 2 ^ l ≤ j := Nat.mod_le _ _
    exact ⟨j, hj, by omega, h4, by rw [h5, Nat.mod_mod]⟩

/-- The loop `rewireLoop` writes exactly at the indices listed by
`rewireVisits`, in that order. -/
theorem rewireLoop_eq_foldl (high_bit : Int) (p1 p2 : Nat) : ∀ (fuel : Nat) (i : Int)
    (arr arr1 : List Nat), rewireLoop high_bit p1 p2 fuel i arr = some arr1 →
    arr1 = (rewireVisits high_bit fuel i arr.length).foldl
      (fun a j => a.set j.toNat (if Int.land j high_bit = 0 then p1 else p2)) arr := by
  intro fuel
  induction fuel with
  | zero =>
    intro i arr arr1 h
    by_cases hi : i < (arr.length : Int)
    · simp [rewireLoop, hi] at h
    · simp only [rewireLoop, hi, if_false, Option.some.injEq] at h
      simp [rewireVisits, h]
  | succ fuel ih =>
    intro i arr arr1 h
    by_cases hi : i < (arr.length : Int)
    · rw [rewireLoop, if_pos hi] at h
      by_cases hb : 0 ≤ i ∧ i.toNat < arr.length
      · rw [if_pos hb] at h
        have := ih _ _ _ h
        rw [List.length_set] at this
        rw [rewireVisits, if_pos hi, List.foldl_cons]
        exact this
      · rw [if_neg hb] at h
        cases h
    · rw [rewireLoop, if_neg hi] at h
      cases h
      rw [rewireVisits, if_neg hi]
      rfl

/-- C11 (bucket capacity bound), evaluated on the code: the table reached from
`New 1 idHash` by `Insert 1 10` and `Insert 3 30` has a positive capacity `1`,
and the bucket referenced by directory slot `1` holds two entries. -/
theorem c11_bucket_above_capacity :
    Reachable 1 idHash exTwo ∧ 0 < exTwo.bucket_size_ ∧
      (New 1 idHash : ExtendibleHashTable Nat Nat).Insert 1 10 = some exOne ∧
      exOne.Insert 3 30 = some exTwo ∧
      exTwo.getBucket 1 = some 1 ∧
      exTwo.deref 1 = some { max_size_ := 1, depth_ := 1, arr_ := [(1, 10), (3, 30)] } ∧
      ∃ b, exTwo.deref 1 = some b ∧ b.isFull = true ∧ b.getMaxSize < b.getSize :=
  ⟨Reachable.insert 3 30 (Reachable.insert 1 10 Reachable.new rfl) rfl, by decide, rfl, rfl, rfl,
   rfl, _, rfl, rfl, by decide⟩

/-- C12, refuted as stated: on the full bucket of capacity `1` holding the key
`1`, `insert 3 30` does not leave the entries as they were and does not return
false; it appends the pair and returns true. -/
theorem c12_insert_into_full_bucket :
    (({ max_size_ := 1, depth_ := 0, arr_ := [(1, 10)] } : bucket Nat Nat).isFull = true) ∧
      (({ max_size_ := 1, depth_ := 0, arr_ := [(1, 10)] } : bucket Nat Nat).find 3 = none) ∧
      ({ max_size_ := 1, depth_ := 0, arr_ := [(1, 10)] } : bucket Nat Nat).insert 3 30 =
        ({ max_size_ := 1, depth_ := 0, arr_ := [(1, 10), (3, 30)] }, true) ∧
      (({ max_size_ := 1, depth_ := 0, arr_ := [(1, 10)] } : bucket Nat Nat).insert 3 30).1.getData ≠
        ({ max_size_ := 1, depth_ := 0, arr_ := [(1, 10)] } : bucket Nat Nat).getData ∧
      (({ max_size_ := 1, depth_ := 0, arr_ := [(1, 10)] } : bucket Nat Nat).insert 3 30).2 ≠ false :=
  ⟨rfl, rfl, rfl, by decide, by decide⟩

/-- C13, refuted as stated: `New` with the capacity `0` and with the capacity
`-1` returns a table, and on that table `Insert` returns and `Find` then
reports the key found. -/
theorem c13_new_accepts_nonpositive_capacity :
    (∃ t1, (New 0 idHash : ExtendibleHashTable Nat Nat).Insert 1 10 = some t1 ∧
        t1.Find 1 = some (some 10) ∧ t1.GetNumberOfKeys = 1) ∧
      (∃ t1, (New (-1) idHash : ExtendibleHashTable Nat Nat).Insert 1 10 = some t1 ∧
        t1.Find 1 = some (some 10) ∧ t1.GetNumberOfKeys = 1) :=
  ⟨⟨_, rfl, rfl, rfl⟩, ⟨_, rfl, rfl, rfl⟩⟩

/-- C13, amended: `New` checks nothing.  For every capacity, positive, zero or
negative, and every hash function it returns the table of global depth `0`
with one directory slot, one bucket and no key, whose bucket is empty, has
local depth `0` and the given capacity; and `Insert`, `Find` and `Remove`
return on that table. -/
theorem c13_new_checks_nothing (c : Int) (hash : K → Int) (key : K) (val : V) :
    (New c hash : ExtendibleHashTable K V).GetGlobalDepth = 0 ∧
      (New c hash : ExtendibleHashTable K V).GetNumberOfDirectories = 1 ∧
      (New c hash : ExtendibleHashTable K V).GetNumberOfBuckets = 1 ∧
      (New c hash : ExtendibleHashTable K V).GetNumberOfKeys = 0 ∧
      (New c hash : ExtendibleHashTable K V).getBucket 0 = some 0 ∧
      (New c hash : ExtendibleHashTable K V).deref 0 =
        some { max_size_ := c, depth_ := 0, arr_ := [] } ∧
      (New c hash : ExtendibleHashTable K V).Find key = some none ∧
      (New c hash : ExtendibleHashTable K V).Remove key = some (New c hash, false) ∧
      ∃ t1, (New c hash : ExtendibleHashTable K V).Insert key val = some t1 ∧
        t1.Find key = some (some val) := by
  have h : Inv (New c hash : ExtendibleHashTable K V) := Inv_New c hash
  obtain ⟨p, b, hp, hb, _⟩ := h.lookup key
  have hp0 : p = 0 := by
    have := (h.mem_arr_iff p).mp (List.getElem?_mem hp)
    simp [New] at this
    exact this
  subst hp0
  have hb0 : b = newBucket c 0 := by
    simp [New] at hb
    exact hb.symm
  subst hb0
  have hF : (New c hash : ExtendibleHashTable K V).Find key = some none := Find_eq hp hb
  obtain ⟨t1, h1, _, _, _, h2, _⟩ := Insert_spec h key val
  exact ⟨rfl, rfl, rfl, rfl, rfl, rfl, hF, Remove_of_absent hp hb rfl, t1, h1, h2⟩

/-! ## `handleFull` on an arbitrary table -/

theorem sliceGet_eq_some {α : Type} {a : List α} {i : Int} {x : α} (h : sliceGet a i = some x) :
    0 ≤ i ∧ i = ((i.toNat : Nat) : Int) ∧ a[i.toNat]? = some x := by
  unfold sliceGet at h
  by_cases hi : 0 ≤ i
  · rw [if_pos hi] at h
    exact ⟨hi, (Int.toNat_of_nonneg hi).symm, h⟩
  · rw [if_neg hi] at h
    cases h

theorem insert_depth (b : bucket K V) (key : K) (val : V) :
    (b.insert key val).1.depth_ = b.depth_ ∧ (b.insert key val).1.max_size_ = b.max_size_ := by
  unfold bucket.insert
  cases updateArr key val b.arr_ <;> exact ⟨rfl, rfl⟩

theorem insert_of_absent {b : bucket K V} {key : K} (hf : b.find key = none) (val : V) :
    b.insert key val = ({ b with arr_ := b.arr_ ++ [(key, val)] }, true) := by
  have hu : updateArr key val b.arr_ = none := (updateArr_eq_none_iff _ _ _).mpr hf
  simp [bucket.insert, hu]

theorem grow_arr (t : ExtendibleHashTable K V) (l : Nat) (nk : Int) :
    (({ t with num_keys_ := nk } : ExtendibleHashTable K V).grow l).arr_ =
      t.dirBeforeRewire l ∧
    (({ t with num_keys_ := nk } : ExtendibleHashTable K V).grow l).arr_ = (t.grow l).arr_ := by
  unfold ExtendibleHashTable.grow ExtendibleHashTable.dirBeforeRewire
  by_cases h : l = t.depth_
  · simp only [ExtendibleHashTable.GetGlobalDepth, h, if_true]
    exact ⟨rfl, rfl⟩
  · simp only [ExtendibleHashTable.GetGlobalDepth, h, if_false]
    exact ⟨trivial, trivial⟩

theorem grow_num_buckets (t : ExtendibleHashTable K V) (l : Nat) :
    (t.grow l).num_buckets_ = t.num_buckets_ := by
  unfold ExtendibleHashTable.grow
  split <;> rfl

theorem grow_depth (t : ExtendibleHashTable K V) (l : Nat) :
    (t.grow l).depth_ = if l = t.depth_ then t.depth_ + 1 else t.depth_ := by
  unfold ExtendibleHashTable.grow
  split <;> rfl

theorem dirBeforeRewire_length (t : ExtendibleHashTable K V) (l : Nat) :
    (t.dirBeforeRewire l).length = if l = t.depth_ then 2 * t.arr_.length else t.arr_.length := by
  unfold ExtendibleHashTable.dirBeforeRewire
  by_cases h : l = t.depth_
  · simp only [ExtendibleHashTable.GetGlobalDepth, h, if_true]
    show (t.arr_ ++ t.arr_).length = _
    rw [List.length_append]; omega
  · simp only [ExtendibleHashTable.GetGlobalDepth, h, if_false]

/-- The closed form of `handleFull` on any table whose slot `index` holds a
valid pointer: it returns, with the split of the bucket after the pair has
been inserted and the directory rewired from its state before the loop. -/
theorem handleFull_closed {t : ExtendibleHashTable K V} {index : Int} {p1 : Nat} {b : bucket K V}
    (hp : t.getBucket index = some p1) (hb : t.deref p1 = some b) (key : K) (val : V) :
    ∃ arr1,
      t.handleFull index key val =
        some ((({ t with num_keys_ := t.num_keys_ + 1 } : ExtendibleHashTable K V).grow
          b.depth_).afterSplit p1 (b.insert key val).1 arr1) ∧
      Rewired (t.dirBeforeRewire b.depth_) arr1 index.toNat b.depth_ p1 t.heap.length := by
  obtain ⟨_, hidx, _⟩ := sliceGet_eq_some hp
  have hp1 : p1 < t.heap.length := lt_of_getElem?_eq_some hb
  obtain ⟨hd, _⟩ := insert_depth b key val
  obtain ⟨arr1, h1, h2⟩ := splitBucket_eq
    (({ t with num_keys_ := t.num_keys_ + 1 } : ExtendibleHashTable K V).grow b.depth_)
    index.toNat p1 (b.insert key val).1 (by rw [grow_heap]; exact hp1)
  refine ⟨arr1, ?_, ?_⟩
  · rw [handleFull_eq, hp, Option.some_bind, hb, Option.some_bind]
    rw [← hidx] at h1
    rw [← h1]
    simp only [hd]
    rfl
  · rw [(grow_arr t b.depth_ _).1, hd, grow_heap] at h2
    exact h2

theorem bitPart_false (hash : K → Int) (l : Nat) (es : List (pair K V)) :
    bitPart hash l false es = es.filter (fun e => !Int.testBit (hash e.1) l) := by
  unfold bitPart
  apply List.filter_congr
  intro e _
  cases Int.testBit (hash e.1) l <;> rfl

theorem bitPart_true (hash : K → Int) (l : Nat) (es : List (pair K V)) :
    bitPart hash l true es = es.filter (fun e => Int.testBit (hash e.1) l) := by
  unfold bitPart
  apply List.filter_congr
  intro e _
  cases Int.testBit (hash e.1) l <;> rfl

theorem afterSplit_deref (t : ExtendibleHashTable K V) (l : Nat) (nk : Int) {p1 : Nat}
    (hp1 : p1 < t.heap.length) (c : bucket K V) (arr1 : List Nat) (q : Nat) :
    ((({ t with num_keys_ := nk } : ExtendibleHashTable K V).grow l).afterSplit p1 c arr1).deref q =
      if q = p1 then
        some { max_size_ := c.max_size_, depth_ := c.depth_ + 1,
               arr_ := c.arr_.filter (fun e => !Int.testBit (t.hash e.1) c.depth_) }
      else if q = t.heap.length then
        some { max_size_ := c.max_size_, depth_ := c.depth_ + 1,
               arr_ := c.arr_.filter (fun e => Int.testBit (t.hash e.1) c.depth_) }
      else t.deref q := by
  simp only [ExtendibleHashTable.afterSplit, ExtendibleHashTable.deref, grow_heap, grow_hash]
  rw [getElem?_split_heap _ _ _ _ _ hp1, bitPart_false, bitPart_true]

/-- C17 (split partition). On any table, when `handleFull` is called at a
directory index holding the pointer `p1` of a bucket `b` of local depth `l`
that does not hold `key`, it returns a table in which the bucket at `p1`
holds exactly the pairs of `b`'s old content followed by `(key, val)` whose
key hash has bit `l` clear, and the bucket at the fresh address
`t.heap.length` (the sibling) holds exactly those whose key hash has bit `l`
set, both in their previous relative order; together the two lists are a
permutation of the old content followed by the new pair; and both buckets
have `b`'s capacity and local depth `l + 1`. -/
theorem c17_split_partition (t : ExtendibleHashTable K V) (index : Int) (p1 : Nat)
    (b : bucket K V) (key : K) (val : V)
    (hp : t.getBucket index = some p1) (hb : t.deref p1 = some b) (hf : b.find key = none) :
    ∃ t1, t.handleFull index key val = some t1 ∧
      t.deref t.heap.length = none ∧
      t1.deref p1 = some
        { max_size_ := b.max_size_, depth_ := b.depth_ + 1,
          arr_ := (b.arr_ ++ [(key, val)]).filter (fun e => !Int.testBit (t.hash e.1) b.depth_) } ∧
      t1.deref t.heap.length = some
        { max_size_ := b.max_size_, depth_ := b.depth_ + 1,
          arr_ := (b.arr_ ++ [(key, val)]).filter (fun e => Int.testBit (t.hash e.1) b.depth_) } ∧
      ((b.arr_ ++ [(key, val)]).filter (fun e => !Int.testBit (t.hash e.1) b.depth_)).Sublist
        (b.arr_ ++ [(key, val)]) ∧
      ((b.arr_ ++ [(key, val)]).filter (fun e => Int.testBit (t.hash e.1) b.depth_)).Sublist
        (b.arr_ ++ [(key, val)]) ∧
      ((b.arr_ ++ [(key, val)]).filter (fun e => !Int.testBit (t.hash e.1) b.depth_) ++
        (b.arr_ ++ [(key, val)]).filter (fun e => Int.testBit (t.hash e.1) b.depth_)).Perm
        (b.arr_ ++ [(key, val)]) := by
  obtain ⟨arr1, h1, _⟩ := handleFull_closed hp hb key val
  have hp1 : p1 < t.heap.length := lt_of_getElem?_eq_some hb
  rw [insert_of_absent hf] at h1
  refine ⟨_, h1, ?_, ?_, ?_, List.filter_sublist _, List.filter_sublist _, ?_⟩
  · exact List.getElem?_eq_none (Nat.le_refl _)
  · rw [afterSplit_deref t b.depth_ _ hp1, if_pos rfl]
  · rw [afterSplit_deref t b.depth_ _ hp1, if_neg (Nat.ne_of_gt hp1), if_pos rfl]
  · have := List.filter_append_perm (fun e : pair K V => Int.testBit (t.hash e.1) b.depth_)
      (b.arr_ ++ [(key, val)])
    refine (List.perm_append_comm.trans ?_).trans this
    apply List.Perm.append_left
    apply List.Perm.of_eq
    apply List.filter_congr
    intro e _
    simp

theorem c17_split_partition_witness :
    exOne.getBucket 0 = some 0 ∧
      exOne.deref 0 = some { max_size_ := 1, depth_ := 0, arr_ := [(1, 10)] } ∧
      ({ max_size_ := 1, depth_ := 0, arr_ := [(1, 10)] } : bucket Nat Nat).find 2 = none ∧
      ∃ t1, exOne.handleFull 0 2 20 = some t1 ∧
        exOne.deref exOne.heap.length = none ∧
        t1.deref 0 = some
          { max_size_ := 1, depth_ := 0 + 1,
            arr_ := (([(1, 10)] : List (pair Nat Nat)) ++ [(2, 20)]).filter (fun e : pair Nat Nat => !Int.testBit (exOne.hash e.1) 0) } ∧
        t1.deref exOne.heap.length = some
          { max_size_ := 1, depth_ := 0 + 1,
            arr_ := (([(1, 10)] : List (pair Nat Nat)) ++ [(2, 20)]).filter (fun e : pair Nat Nat => Int.testBit (exOne.hash e.1) 0) } ∧
        ((([(1, 10)] : List (pair Nat Nat)) ++ [(2, 20)]).filter (fun e : pair Nat Nat => !Int.testBit (exOne.hash e.1) 0)).Sublist
          (([(1, 10)] : List (pair Nat Nat)) ++ [(2, 20)]) ∧
        ((([(1, 10)] : List (pair Nat Nat)) ++ [(2, 20)]).filter (fun e : pair Nat Nat => Int.testBit (exOne.hash e.1) 0)).Sublist
          (([(1, 10)] : List (pair Nat Nat)) ++ [(2, 20)]) ∧
        ((([(1, 10)] : List (pair Nat Nat)) ++ [(2, 20)]).filter (fun e : pair Nat Nat => !Int.testBit (exOne.hash e.1) 0) ++
          (([(1, 10)] : List (pair Nat Nat)) ++ [(2, 20)]).filter (fun e : pair Nat Nat => Int.testBit (exOne.hash e.1) 0)).Perm
          (([(1, 10)] : List (pair Nat Nat)) ++ [(2, 20)]) :=
  ⟨rfl, rfl, rfl,
   c17_split_partition exOne 0 0 { max_size_ := 1, depth_ := 0, arr_ := [(1, 10)] } 2 20 rfl rfl rfl⟩

/-- The directory of the table that `splitBucket` returns is the result of the
rewiring loop. -/
theorem splitBucket_arr {t t1 : ExtendibleHashTable K V} {index : Int} {p1 : Nat} {b : bucket K V}
    (h : t.splitBucket index p1 b = some t1) :
    rewireLoop ((1 : Int) <<< (b.depth_ : Int)) p1 t.heap.length t.arr_.length
      (Int.land ((1 : Int) <<< (b.depth_ : Int) - 1) index) t.arr_ = some t1.arr_ := by
  simp only [ExtendibleHashTable.splitBucket, bucket.getDepth, bucket.incrementDepth,
    bucket.getData, bucket.getMaxSize, splitLoop_eq, List.nil_append,
    ExtendibleHashTable.store, newBucket] at h
  cases hl : rewireLoop ((1 : Int) <<< (b.depth_ : Int)) p1 t.heap.length t.arr_.length
      (Int.land ((1 : Int) <<< (b.depth_ : Int) - 1) index) t.arr_ with
  | none =>
    rw [hl] at h
    simp at h
  | some arr =>
    rw [hl] at h
    simp only [Option.bind_eq_bind, Option.some_bind, Option.pure_def, Option.some.injEq] at h
    rw [← h]

/-- The directory of the table that `handleFull` returns is the result of the
rewiring loop run on the directory as it is after the conditional doubling. -/
theorem handleFull_arr {t t1 : ExtendibleHashTable K V} {index : Int} {p1 : Nat} {b : bucket K V}
    (hp : t.getBucket index = some p1) (hb : t.deref p1 = some b) {key : K} {val : V}
    (h : t.handleFull index key val = some t1) :
    rewireLoop ((1 : Int) <<< (b.depth_ : Int)) p1 t.heap.length (t.dirBeforeRewire b.depth_).length
      (Int.land ((1 : Int) <<< (b.depth_ : Int) - 1) index) (t.dirBeforeRewire b.depth_) =
        some t1.arr_ := by
  obtain ⟨hd, _⟩ := insert_depth b key val
  rw [handleFull_eq, hp, Option.some_bind, hb, Option.some_bind] at h
  have h2 : ExtendibleHashTable.splitBucket
      (({ t with num_keys_ := t.num_keys_ + 1 } : ExtendibleHashTable K V).grow b.depth_)
      index p1 (b.insert key val).1 = some t1 := by
    rw [← h]
    simp only [hd]
    rfl
  have h3 := splitBucket_arr h2
  rw [(grow_arr t b.depth_ _).1, hd, grow_heap] at h3
  exact h3

/-- On a table that satisfies the invariant, the slots of the directory, as it
is before the rewiring loop, that hold the pointer found at slot `x` are the
slots congruent to `x` modulo `2^l`, `l` the local depth of its bucket. -/
theorem Inv.dirBeforeRewire_share {t : ExtendibleHashTable K V} (h : Inv t) {x p : Nat}
    {b : bucket K V} (hx : t.arr_[x]? = some p) (hb : t.heap[p]? = some b) (j : Nat) :
    (t.dirBeforeRewire b.depth_)[j]? = some p ↔
      j < (t.dirBeforeRewire b.depth_).length ∧ j % 2 ^ b.depth_ = x % 2 ^ b.depth_ := by
  have hdir : t.dirBeforeRewire b.depth_ = (t.grow b.depth_).arr_ := by
    obtain ⟨h1, h2⟩ := grow_arr t b.depth_ t.num_keys_
    rw [← h1, h2]
  rw [hdir]
  have hinv := h.grow b.depth_
  have hx2 := grow_getElem? t b.depth_ hx
  obtain ⟨b1, hb1, hok⟩ := hinv.slot x p hx2
  rw [grow_heap, hb] at hb1
  cases hb1
  constructor
  · intro hj
    have hjl := lt_of_getElem?_eq_some hj
    exact ⟨hjl, (hok.share j hjl).mp hj⟩
  · rintro ⟨hjl, hj⟩
    exact (hok.share j hjl).mpr hj

/-- C18 (directory rewiring on split). On every reachable table, when
`handleFull` is called at a directory index holding the pointer `p` of a
bucket `b` of local depth `l`, it returns; the rewiring loop, started at
`index & (2^l - 1)` with step `2^l`, writes each index once and writes exactly
the slots that hold `p` in the directory as it is after the conditional
doubling; the directory returned is that directory with those writes applied;
afterwards every slot that held `p` holds `p` when bit `l` of its index is
clear and the fresh pointer of the sibling when it is set, and every other
slot holds what it held. -/
theorem c18_directory_rewiring (c : Int) (hash : K → Int) (t : ExtendibleHashTable K V)
    (hr : Reachable c hash t) (index : Int) (p : Nat) (b : bucket K V) (key : K) (val : V)
    (hp : t.getBucket index = some p) (hb : t.deref p = some b) :
    ∃ t1, t.handleFull index key val = some t1 ∧
      (rewireVisits ((1 : Int) <<< (b.depth_ : Int)) (t.dirBeforeRewire b.depth_).length
        (Int.land ((1 : Int) <<< (b.depth_ : Int) - 1) index)
        (t.dirBeforeRewire b.depth_).length).Nodup ∧
      (∀ i : Int,
        i ∈ rewireVisits ((1 : Int) <<< (b.depth_ : Int)) (t.dirBeforeRewire b.depth_).length
          (Int.land ((1 : Int) <<< (b.depth_ : Int) - 1) index)
          (t.dirBeforeRewire b.depth_).length ↔
        sliceGet (t.dirBeforeRewire b.depth_) i = some p) ∧
      t1.arr_ =
        (rewireVisits ((1 : Int) <<< (b.depth_ : Int)) (t.dirBeforeRewire b.depth_).length
          (Int.land ((1 : Int) <<< (b.depth_ : Int) - 1) index)
          (t.dirBeforeRewire b.depth_).length).foldl
          (fun a i => a.set i.toNat
            (if Int.land i ((1 : Int) <<< (b.depth_ : Int)) = 0 then p else t.heap.length))
          (t.dirBeforeRewire b.depth_) ∧
      t1.arr_.length = (t.dirBeforeRewire b.depth_).length ∧
      t.deref t.heap.length = none ∧ (t1.deref t.heap.length).isSome = true ∧
      (∀ j : Nat, (t.dirBeforeRewire b.depth_)[j]? = some p →
        t1.arr_[j]? = some (if Nat.testBit j b.depth_ then t.heap.length else p)) ∧
      (∀ j : Nat, (t.dirBeforeRewire b.depth_)[j]? ≠ some p →
        t1.arr_[j]? = (t.dirBeforeRewire b.depth_)[j]?) := by
  have h := hr.inv.1
  obtain ⟨hnn, hidx, hx⟩ := sliceGet_eq_some hp
  have hp1 : p < t.heap.length := lt_of_getElem?_eq_some hb
  obtain ⟨arr1, h1, h2, h3⟩ := handleFull_closed hp hb key val
  have hloop := handleFull_arr hp hb h1
  have hshare := h.dirBeforeRewire_share hx hb
  obtain ⟨v1, v2⟩ := rewireVisits_result b.depth_ (t.dirBeforeRewire b.depth_).length index.toNat
  rw [← hidx] at v1 v2
  refine ⟨_, h1, v1, ?_, ?_, h2, List.getElem?_eq_none (Nat.le_refl _), ?_, ?_, ?_⟩
  · intro i
    rw [v2 i]
    constructor
    · rintro ⟨j, hj, h4, h5⟩
      rw [hj, sliceGet_ofNat]
      exact (hshare j).mpr ⟨h4, h5⟩
    · intro hs
      obtain ⟨_, hi2, hi3⟩ := sliceGet_eq_some hs
      exact ⟨i.toNat, hi2, ((hshare _).mp hi3).1, ((hshare _).mp hi3).2⟩
  · have := rewireLoop_eq_foldl _ _ _ _ _ _ _ hloop
    exact this
  · rw [afterSplit_deref t b.depth_ _ hp1, if_neg (Nat.ne_of_gt hp1), if_pos rfl]
    rfl
  · intro j hj
    show arr1[j]? = _
    rw [h3 j, if_pos ((hshare j).mp hj)]
    cases Nat.testBit j b.depth_ <;> simp
  · intro j hj
    show arr1[j]? = _
    rw [h3 j, if_neg (fun hc => hj ((hshare j).mpr hc))]

theorem c18_directory_rewiring_witness :
    Reachable 1 idHash exThree ∧ exThree.getBucket 0 = some 0 ∧
      exThree.deref 0 = some { max_size_ := 1, depth_ := 1, arr_ := [(2, 20)] } ∧
      ∃ t1, exThree.handleFull 0 4 40 = some t1 ∧
        (rewireVisits ((1 : Int) <<< ((1 : Nat) : Int)) (exThree.dirBeforeRewire 1).length
          (Int.land ((1 : Int) <<< ((1 : Nat) : Int) - 1) 0)
          (exThree.dirBeforeRewire 1).length).Nodup ∧
        (∀ i : Int,
          i ∈ rewireVisits ((1 : Int) <<< ((1 : Nat) : Int)) (exThree.dirBeforeRewire 1).length
            (Int.land ((1 : Int) <<< ((1 : Nat) : Int) - 1) 0)
            (exThree.dirBeforeRewire 1).length ↔
          sliceGet (exThree.dirBeforeRewire 1) i = some 0) ∧
        t1.arr_ =
          (rewireVisits ((1 : Int) <<< ((1 : Nat) : Int)) (exThree.dirBeforeRewire 1).length
            (Int.land ((1 : Int) <<< ((1 : Nat) : Int) - 1) 0)
            (exThree.dirBeforeRewire 1).length).foldl
            (fun a i => a.set i.toNat
              (if Int.land i ((1 : Int) <<< ((1 : Nat) : Int)) = 0 then 0 else exThree.heap.length))
            (exThree.dirBeforeRewire 1) ∧
        t1.arr_.length = (exThree.dirBeforeRewire 1).length ∧
        exThree.deref exThree.heap.length = none ∧
        (t1.deref exThree.heap.length).isSome = true ∧
        (∀ j : Nat, (exThree.dirBeforeRewire 1)[j]? = some 0 →
          t1.arr_[j]? = some (if Nat.testBit j 1 then exThree.heap.length else 0)) ∧
        (∀ j : Nat, (exThree.dirBeforeRewire 1)[j]? ≠ some 0 →
          t1.arr_[j]? = (exThree.dirBeforeRewire 1)[j]?) :=
  ⟨Reachable.insert 2 20 (Reachable.insert 3 30 (Reachable.insert 1 10 Reachable.new rfl) rfl) rfl,
   rfl, rfl,
   c18_directory_rewiring 1 idHash exThree
     (Reachable.insert 2 20 (Reachable.insert 3 30 (Reachable.insert 1 10 Reachable.new rfl) rfl) rfl)
     0 0 { max_size_ := 1, depth_ := 1, arr_ := [(2, 20)] } 4 40 rfl rfl⟩

theorem rewireVisits_range (high_bit : Int) (hh : 0 ≤ high_bit) (len : Nat) :
    ∀ (fuel : Nat) (i : Int), 0 ≤ i → ∀ z ∈ rewireVisits high_bit fuel i len,
      0 ≤ z ∧ z < (len : Int) := by
  intro fuel
  induction fuel with
  | zero => intro i _ z hz; simp [rewireVisits] at hz
  | succ fuel ih =>
    intro i hi z hz
    rw [rewireVisits] at hz
    by_cases hlt : i < (len : Int)
    · rw [if_pos hlt] at hz
      rcases List.mem_cons.mp hz with h | h
      · rw [h]; exact ⟨hi, hlt⟩
      · exact ih (i + high_bit) (by omega) z h
    · rw [if_neg hlt] at hz
      simp at hz

/-- C14 (no operation fails). On every reachable table and for every key,
whatever the sign of its hash and whatever the capacity: `indexOf key`, which
is `hash key & ((1 << depth) - 1)`, lies in `0 ≤ · < len(directory)`; the
directory slot and the bucket it points to exist; `Find` and `Remove` return;
`Insert` returns with the key stored; and every index that the rewiring loop
of `handleFull` writes, for any local depth `l` and any directory length
`len`, lies in `0 ≤ · < len`. -/
theorem c14_operations_never_fail (c : Int) (hash : K → Int) (t : ExtendibleHashTable K V)
    (hr : Reachable c hash t) (key : K) (val : V) :
    t.indexOf key = Int.land (hash key) ((1 : Int) <<< (t.GetGlobalDepth : Int) - 1) ∧
      0 ≤ t.indexOf key ∧ t.indexOf key < t.GetNumberOfDirectories ∧
      (∃ p b, t.getBucket (t.indexOf key) = some p ∧ t.deref p = some b) ∧
      (∃ r, t.Find key = some r) ∧
      (∃ t1 r, t.Remove key = some (t1, r)) ∧
      (∃ t1, t.Insert key val = some t1 ∧ t1.Find key = some (some val)) ∧
      (∀ (l len : Nat) (i : Int),
        i ∈ rewireVisits ((1 : Int) <<< (l : Int)) len
          (Int.land ((1 : Int) <<< (l : Int) - 1) (t.indexOf key)) len →
        0 ≤ i ∧ i < (len : Int)) := by
  obtain ⟨h, hh, _⟩ := hr.inv
  obtain ⟨p, b, hp, hb, _⟩ := h.lookup key
  have hlt := lt_of_getElem?_eq_some hp
  obtain ⟨t1, h1, _, _, _, h2, _⟩ := Insert_spec h key val
  obtain ⟨t2, r, h3, _⟩ := Remove_spec h key
  refine ⟨?_, ?_, ?_, ⟨p, b, ?_, hb⟩, ⟨_, Find_eq hp hb⟩, ⟨t2, r, h3⟩, ⟨t1, h1, h2⟩, ?_⟩
  · rw [← hh]; rfl
  · rw [indexOf_eq]; omega
  · rw [indexOf_eq]
    show ((lowBits (t.hash key) t.depth_ : Nat) : Int) < (t.arr_.length : Int)
    omega
  · rw [getBucket_indexOf]; exact hp
  · intro l len i hi
    rw [indexOf_eq, land_mask_ofNat] at hi
    have hpos : (0 : Int) ≤ (1 : Int) <<< (l : Int) := by
      rw [Int.one_shiftLeft]; exact Int.ofNat_nonneg _
    exact rewireVisits_range _ hpos len len _ (by omega) i hi

theorem c14_operations_never_fail_witness :
    Reachable 1 idHash exTwo ∧
      (exTwo.indexOf 5 = Int.land (idHash 5) ((1 : Int) <<< (exTwo.GetGlobalDepth : Int) - 1) ∧
        0 ≤ exTwo.indexOf 5 ∧ exTwo.indexOf 5 < exTwo.GetNumberOfDirectories ∧
        (∃ p b, exTwo.getBucket (exTwo.indexOf 5) = some p ∧ exTwo.deref p = some b) ∧
        (∃ r, exTwo.Find 5 = some r) ∧
        (∃ t1 r, exTwo.Remove 5 = some (t1, r)) ∧
        (∃ t1, exTwo.Insert 5 50 = some t1 ∧ t1.Find 5 = some (some 50)) ∧
        (∀ (l len : Nat) (i : Int),
          i ∈ rewireVisits ((1 : Int) <<< (l : Int)) len
            (Int.land ((1 : Int) <<< (l : Int) - 1) (exTwo.indexOf 5)) len →
          0 ≤ i ∧ i < (len : Int))) :=
  ⟨Reachable.insert 3 30 (Reachable.insert 1 10 Reachable.new rfl) rfl,
   c14_operations_never_fail 1 idHash exTwo
     (Reachable.insert 3 30 (Reachable.insert 1 10 Reachable.new rfl) rfl) 5 50⟩

/-- C16 (exactly one split per overflow). On every reachable table `Insert`
returns, and with `b` the bucket that the key is addressed to, of local depth
`l`: when the key is absent from `b` and `b` is full, the number of buckets
grows by exactly one and the local depth of `b` becomes `l + 1`; the global
depth grows by one and the directory doubles in length when `l` equalled the
global depth, and both are unchanged otherwise.  When the key is present or
`b` is not full, the number of buckets, the global depth, the directory and
every local depth are unchanged. -/
theorem c16_one_split_per_overflow (c : Int) (hash : K → Int) (t : ExtendibleHashTable K V)
    (hr : Reachable c hash t) (key : K) (val : V) :
    ∃ p b t1, t.getBucket (t.indexOf key) = some p ∧ t.deref p = some b ∧
      t.Insert key val = some t1 ∧
      ((b.find key = none ∧ b.isFull = true) →
        t1.GetNumberOfBuckets = t.GetNumberOfBuckets + 1 ∧
        (t1.deref p).map bucket.getDepth = some (b.getDepth + 1) ∧
        (b.getDepth = t.GetGlobalDepth →
          t1.GetGlobalDepth = t.GetGlobalDepth + 1 ∧
          t1.GetNumberOfDirectories = 2 * t.GetNumberOfDirectories) ∧
        (b.getDepth ≠ t.GetGlobalDepth →
          t1.GetGlobalDepth = t.GetGlobalDepth ∧
          t1.GetNumberOfDirectories = t.GetNumberOfDirectories)) ∧
      (¬ (b.find key = none ∧ b.isFull = true) →
        t1.GetNumberOfBuckets = t.GetNumberOfBuckets ∧
        t1.GetGlobalDepth = t.GetGlobalDepth ∧
        t1.arr_ = t.arr_ ∧
        t1.heap.map (fun d => d.getDepth) = t.heap.map (fun d => d.getDepth)) := by
  have h := hr.inv.1
  obtain ⟨p, b, hp, hb, hok⟩ := h.lookup key
  have hp1 : p < t.heap.length := lt_of_getElem?_eq_some hb
  have hgb : t.getBucket (t.indexOf key) = some p := by rw [getBucket_indexOf]; exact hp
  cases hf : findArr key b.arr_ with
  | some v0 =>
    obtain ⟨a, _, hI⟩ := Insert_of_found hp hb hf val
    refine ⟨p, b, _, hgb, hb, hI, ?_, ?_⟩
    · rintro ⟨h1, _⟩
      rw [bucket.find, hf] at h1
      cases h1
    · intro _
      exact ⟨rfl, rfl, rfl, map_depth_set (c := { b with arr_ := a }) hb rfl⟩
  | none =>
    cases hfull : b.isFull with
    | false =>
      have hI := Insert_of_room hp hb hf hfull val
      refine ⟨p, b, _, hgb, hb, hI, ?_, ?_⟩
      · rintro ⟨_, h2⟩
        rw [hfull] at h2
        cases h2
      · intro _
        exact ⟨rfl, rfl, rfl,
          map_depth_set (c := { b with arr_ := b.arr_ ++ [(key, val)] }) hb rfl⟩
    | true =>
      obtain ⟨arr1, hI, hr1, _⟩ := Insert_of_full hp hb hf hfull val
      refine ⟨p, b, _, hgb, hb, hI, ?_, ?_⟩
      · intro _
        refine ⟨?_, ?_, ?_, ?_⟩
        · show ((t.appendKey p b key val).grow b.depth_).num_buckets_ + 1 = t.num_buckets_ + 1
          rw [grow_num_buckets]
          rfl
        · show Option.map bucket.getDepth
            ((((t.appendKey p b key val).grow b.depth_).heap.set p _ ++ [_])[p]?) = _
          rw [getElem?_split_heap _ _ _ _ _
            (by rw [grow_heap]; show p < (t.heap.set p _).length; rw [List.length_set]; exact hp1),
            if_pos rfl]
          rfl
        · intro hd
          constructor
          · show ((t.appendKey p b key val).grow b.depth_).depth_ = t.depth_ + 1
            rw [grow_depth, if_pos (show b.depth_ = (t.appendKey p b key val).depth_ from hd)]
            rfl
          · show (arr1.length : Int) = 2 * (t.arr_.length : Int)
            rw [hr1]
            have : (t.appendKey p b key val).grow b.depth_ =
                (t.appendKey p b key val).doubleDirectory.incrementGlobalDepth := if_pos hd
            rw [this]
            show ((t.arr_ ++ t.arr_).length : Int) = _
            rw [List.length_append]
            push_cast
            ring
        · intro hd
          have : (t.appendKey p b key val).grow b.depth_ = t.appendKey p b key val := if_neg hd
          constructor
          · show ((t.appendKey p b key val).grow b.depth_).depth_ = t.depth_
            rw [this]
            rfl
          · show (arr1.length : Int) = (t.arr_.length : Int)
            rw [hr1, this]
            rfl
      · intro hc
        exact absurd ⟨hf, hfull⟩ hc

theorem c16_one_split_per_overflow_witness :
    Reachable 1 idHash exOne ∧
      ∃ p b t1, exOne.getBucket (exOne.indexOf 3) = some p ∧ exOne.deref p = some b ∧
        exOne.Insert 3 30 = some t1 ∧
        ((b.find 3 = none ∧ b.isFull = true) →
          t1.GetNumberOfBuckets = exOne.GetNumberOfBuckets + 1 ∧
          (t1.deref p).map bucket.getDepth = some (b.getDepth + 1) ∧
          (b.getDepth = exOne.GetGlobalDepth →
            t1.GetGlobalDepth = exOne.GetGlobalDepth + 1 ∧
            t1.GetNumberOfDirectories = 2 * exOne.GetNumberOfDirectories) ∧
          (b.getDepth ≠ exOne.GetGlobalDepth →
            t1.GetGlobalDepth = exOne.GetGlobalDepth ∧
            t1.GetNumberOfDirectories = exOne.GetNumberOfDirectories)) ∧
        (¬ (b.find 3 = none ∧ b.isFull = true) →
          t1.GetNumberOfBuckets = exOne.GetNumberOfBuckets ∧
          t1.GetGlobalDepth = exOne.GetGlobalDepth ∧
          t1.arr_ = exOne.arr_ ∧
          t1.heap.map (fun d => d.getDepth) = exOne.heap.map (fun d => d.getDepth)) :=
  ⟨Reachable.insert 1 10 Reachable.new rfl,
   c16_one_split_per_overflow 1 idHash exOne (Reachable.insert 1 10 Reachable.new rfl) 3 30⟩

/-- The low-order bits selected by the mask `(1 << n) - 1`, for a hash value
and for a directory index. -/
theorem land_mask_eq_lowBits (h : Int) (n : Nat) :
    Int.land h ((1 : Int) <<< (n : Int) - 1) = ((lowBits h n : Nat) : Int) := by
  rw [land_mask_eq_emod, lowBits_cast]

/-- C19 (local-depth agreement). On every reachable table, for every directory
slot `i`, the bucket `b` it points to, of local depth `l`, and every pair `e`
of `b`: the low-order `l` bits of the hash of `e`'s key
(`hash & ((1 << l) - 1)`) equal the low-order `l` bits of `i`; every
other pair of `b` has the same low-order `l` hash bits; and the slot
`indexOf` of `e`'s key points to `b`. -/
theorem c19_local_depth_agreement (c : Int) (hash : K → Int) (t : ExtendibleHashTable K V)
    (hr : Reachable c hash t) (i p : Nat) (b : bucket K V) (e : pair K V)
    (hi : t.getBucket (i : Int) = some p) (hb : t.deref p = some b) (he : e ∈ b.getData) :
    Int.land (hash e.1) ((1 : Int) <<< (b.getDepth : Int) - 1) =
        Int.land (i : Int) ((1 : Int) <<< (b.getDepth : Int) - 1) ∧
      (∀ e2, e2 ∈ b.getData →
        Int.land (hash e2.1) ((1 : Int) <<< (b.getDepth : Int) - 1) =
          Int.land (hash e.1) ((1 : Int) <<< (b.getDepth : Int) - 1)) ∧
      t.getBucket (t.indexOf e.1) = some p := by
  obtain ⟨h, hh, _⟩ := hr.inv
  have hi1 : t.arr_[i]? = some p := by
    rw [← sliceGet_ofNat]; exact hi
  obtain ⟨b1, hb1, hok⟩ := h.slot i p hi1
  have hb0 : t.heap[p]? = some b := hb
  rw [hb0] at hb1
  cases hb1
  have key : ∀ e2, e2 ∈ b.arr_ →
      Int.land (hash e2.1) ((1 : Int) <<< (b.depth_ : Int) - 1) =
        Int.land (i : Int) ((1 : Int) <<< (b.depth_ : Int) - 1) := by
    intro e2 he2
    rw [land_mask_eq_lowBits, land_mask_eq_lowBits, lowBits_ofNat, ← hh, hok.addr e2 he2]
  refine ⟨key e he, ?_, ?_⟩
  · intro e2 he2
    exact (key e2 he2).trans (key e he).symm
  · rw [getBucket_indexOf]
    exact h.slot_of_key hi1 hb0 he

theorem c19_local_depth_agreement_witness :
    Reachable 1 idHash exThree ∧ exThree.getBucket ((1 : Nat) : Int) = some 1 ∧
      exThree.deref 1 = some { max_size_ := 1, depth_ := 1, arr_ := [(1, 10), (3, 30)] } ∧
      ((3, 30) : pair Nat Nat) ∈
        ({ max_size_ := 1, depth_ := 1, arr_ := [(1, 10), (3, 30)] } : bucket Nat Nat).getData ∧
      (Int.land (idHash 3) ((1 : Int) <<< ((1 : Nat) : Int) - 1) =
          Int.land ((1 : Nat) : Int) ((1 : Int) <<< ((1 : Nat) : Int) - 1) ∧
        (∀ e2, e2 ∈ ({ max_size_ := 1, depth_ := 1, arr_ := [(1, 10), (3, 30)] } :
            bucket Nat Nat).getData →
          Int.land (idHash e2.1) ((1 : Int) <<< ((1 : Nat) : Int) - 1) =
            Int.land (idHash 3) ((1 : Int) <<< ((1 : Nat) : Int) - 1)) ∧
        exThree.getBucket (exThree.indexOf 3) = some 1) :=
  ⟨Reachable.insert 2 20 (Reachable.insert 3 30 (Reachable.insert 1 10 Reachable.new rfl) rfl) rfl,
   rfl, rfl, by decide,
   c19_local_depth_agreement 1 idHash exThree
     (Reachable.insert 2 20 (Reachable.insert 3 30 (Reachable.insert 1 10 Reachable.new rfl) rfl) rfl)
     1 1 { max_size_ := 1, depth_ := 1, arr_ := [(1, 10), (3, 30)] } (3, 30) rfl rfl (by decide)⟩

/-- C20 (bucket count accuracy). On every reachable table `GetNumberOfBuckets`
is the number of distinct bucket pointers held by the directory; it is also
the number of buckets ever allocated, each of which is still held by some
directory slot; and whenever an `Insert` adds a bucket, the pointer of the new
sibling (the first fresh address) is held by some slot of the new directory,
whatever the sibling received. -/
theorem c20_bucket_count (c : Int) (hash : K → Int) (t : ExtendibleHashTable K V)
    (hr : Reachable c hash t) :
    t.GetNumberOfBuckets = (t.buckets.length : Int) ∧
      t.GetNumberOfBuckets = (t.heap.length : Int) ∧
      (∀ p, p < t.heap.length → p ∈ t.arr_) ∧
      ∀ key val t1, t.Insert key val = some t1 →
        t1.GetNumberOfBuckets = t.GetNumberOfBuckets + 1 →
        t.deref t.heap.length = none ∧ (t1.deref t.heap.length).isSome = true ∧
          t.heap.length ∈ t1.arr_ := by
  have h := hr.inv.1
  refine ⟨?_, h.nb, h.onto, ?_⟩
  · show t.num_buckets_ = _
    rw [h.nb, h.buckets_perm.length_eq, List.length_range]
  · intro key val t1 hI hnb
    have h1 : Inv t1 := (Reachable.insert key val hr hI).inv.1
    have hlen : t1.heap.length = t.heap.length + 1 := by
      have e1 := h1.nb
      have e2 := h.nb
      have e3 : t1.num_buckets_ = t.num_buckets_ + 1 := hnb
      omega
    refine ⟨List.getElem?_eq_none (Nat.le_refl _), ?_, h1.onto _ (by omega)⟩
    show (t1.heap[t.heap.length]?).isSome = true
    rw [List.getElem?_eq_getElem (by omega)]
    rfl

theorem c20_bucket_count_witness :
    Reachable 1 idHash exEvenTwo ∧
      (exEvenTwo.GetNumberOfBuckets = (exEvenTwo.buckets.length : Int) ∧
        exEvenTwo.GetNumberOfBuckets = (exEvenTwo.heap.length : Int) ∧
        (∀ p, p < exEvenTwo.heap.length → p ∈ exEvenTwo.arr_) ∧
        ∀ key val t1, exEvenTwo.Insert key val = some t1 →
          t1.GetNumberOfBuckets = exEvenTwo.GetNumberOfBuckets + 1 →
          exEvenTwo.deref exEvenTwo.heap.length = none ∧
            (t1.deref exEvenTwo.heap.length).isSome = true ∧
            exEvenTwo.heap.length ∈ t1.arr_) :=
  ⟨Reachable.insert 4 40 (Reachable.insert 2 20 Reachable.new rfl) rfl,
   c20_bucket_count 1 idHash exEvenTwo
     (Reachable.insert 4 40 (Reachable.insert 2 20 Reachable.new rfl) rfl)⟩

/-- C12, amended: `bucket.insert` has no capacity test.  For every bucket `b`,
full or not, and every key absent from `b`, `insert key val` appends the pair
`(key, val)` at the end of `b`'s entries, keeps capacity and local depth, and
returns true.  For a key that `b` already holds it returns false and updates
the value in place: the bucket afterwards holds `val` for the key, has the
same capacity, local depth, number of entries and sequence of keys, and every
pair with another key is unchanged. -/
theorem c12_insert_appends_or_updates (b : bucket K V) (key : K) (val : V) :
    (b.find key = none →
      b.insert key val =
        ({ max_size_ := b.max_size_, depth_ := b.depth_, arr_ := b.arr_ ++ [(key, val)] }, true)) ∧
    (∀ v0, b.find key = some v0 →
      (b.insert key val).2 = false ∧
      (b.insert key val).1.find key = some val ∧
      (b.insert key val).1.getMaxSize = b.getMaxSize ∧
      (b.insert key val).1.getDepth = b.getDepth ∧
      (b.insert key val).1.getSize = b.getSize ∧
      (b.insert key val).1.getData.map Prod.fst = b.getData.map Prod.fst ∧
      (b.insert key val).1.getData.filter (fun e => !decide (e.1 = key)) =
        b.getData.filter (fun e => !decide (e.1 = key)) ∧
      ∀ k1, k1 ≠ key → (b.insert key val).1.find k1 = b.find k1) := by
  constructor
  · intro hf
    exact insert_of_absent hf val
  · intro v0 hf
    have hu : updateArr key val b.arr_ ≠ none := by
      intro hc
      rw [updateArr_eq_none_iff] at hc
      rw [bucket.find, hc] at hf
      cases hf
    obtain ⟨a, ha⟩ := Option.ne_none_iff_exists'.mp hu
    obtain ⟨a1, a2, a3, a4, a5⟩ := updateArr_spec ha
    have hI : b.insert key val = ({ b with arr_ := a }, false) := by
      simp [bucket.insert, ha]
    rw [hI]
    refine ⟨rfl, a3, rfl, rfl, ?_, a1, a5, a4⟩
    show ((a.length : Nat) : Int) = _
    rw [a2]
    rfl

theorem c12_insert_appends_or_updates_witness :
    (({ max_size_ := 1, depth_ := 0, arr_ := [(1, 10)] } : bucket Nat Nat).isFull = true) ∧
      (({ max_size_ := 1, depth_ := 0, arr_ := [(1, 10)] } : bucket Nat Nat).find 3 = none) ∧
      ({ max_size_ := 1, depth_ := 0, arr_ := [(1, 10)] } : bucket Nat Nat).insert 3 30 =
        ({ max_size_ := 1, depth_ := 0, arr_ := [(1, 10)] ++ [(3, 30)] }, true) ∧
      (({ max_size_ := 1, depth_ := 0, arr_ := [(1, 10)] } : bucket Nat Nat).find 1 = some 10) ∧
      (({ max_size_ := 1, depth_ := 0, arr_ := [(1, 10)] } : bucket Nat Nat).insert 1 11).2 = false ∧
      (({ max_size_ := 1, depth_ := 0, arr_ := [(1, 10)] } : bucket Nat Nat).insert 1 11).1.find 1 =
        some 11 :=
  ⟨rfl, rfl,
   (c12_insert_appends_or_updates
     ({ max_size_ := 1, depth_ := 0, arr_ := [(1, 10)] } : bucket Nat Nat) 3 30).1 rfl,
   rfl,
   ((c12_insert_appends_or_updates
     ({ max_size_ := 1, depth_ := 0, arr_ := [(1, 10)] } : bucket Nat Nat) 1 11).2 10 rfl).1,
   ((c12_insert_appends_or_updates
     ({ max_size_ := 1, depth_ := 0, arr_ := [(1, 10)] } : bucket Nat Nat) 1 11).2 10 rfl).2.1⟩

end ExtendibleHash
